import Mathlib

/-!
Verification of the Pathway-AI-Chatbot RAG backend (`rag-backend/rag.py` and
`rag-backend/main.py`).

The Python code manipulates answer text with the regexes `\[(\d+)\]` (square
citation markers) and, in the HTTP layer, `\((\d+)\)` (round markers).  We
model text as `List Char` and give a character-level scanner `tokAux` that
mirrors how Python's `re` module finds non-overlapping, leftmost matches of
those two patterns: digits are accumulated after an opening bracket and a
match is emitted when the corresponding closing bracket arrives; on a failed
attempt the scan resumes exactly where Python's engine resumes (the skipped
characters are digits, which cannot start a match, so resuming at the failing
character is equivalent to Python's restart at one position after the opening
bracket).  `re.findall` is then reading off the marker tokens, and `re.sub`
with a replacement function is re-rendering the token list with marker
payloads rewritten (`detok`).  Digit classes are modeled as ASCII digits and
lowercasing as ASCII lowercasing, matching the ASCII texts the code handles.
-/

namespace Rag

/-! ### Decimal digits -/

/-- Numeric value of a decimal digit string, as Python's `int()` computes it
on a match of `\d+` (most significant digit first). -/
def digitsVal (ds : List Char) : Nat :=
  ds.foldl (fun a c => a * 10 + (c.toNat - 48)) 0

/-- Fuel-driven decimal printer (the fuel makes it structurally recursive so
that concrete witnesses evaluate inside the kernel). -/
def natDigitsAux : Nat → Nat → List Char
  | 0, _ => []
  | fuel + 1, n =>
    if n < 10 then [Char.ofNat (48 + n)]
    else natDigitsAux fuel (n / 10) ++ [Char.ofNat (48 + n % 10)]

/-- Decimal digits of `n`, as produced by Python's `f"{n}"`. -/
def natDigits (n : Nat) : List Char := natDigitsAux (n + 1) n

theorem natDigitsAux_irrel (fuel₁ : Nat) :
    ∀ fuel₂ n, n < fuel₁ → n < fuel₂ → natDigitsAux fuel₁ n = natDigitsAux fuel₂ n := by
  induction fuel₁ with
  | zero => intro fuel₂ n h; omega
  | succ f ih =>
    intro fuel₂ n h1 h2
    cases fuel₂ with
    | zero => omega
    | succ f2 =>
      simp only [natDigitsAux]
      by_cases hn : n < 10
      · simp [hn]
      · simp only [hn, if_false]
        have hd : n / 10 < f := by omega
        have hd2 : n / 10 < f2 := by omega
        rw [ih f2 (n / 10) hd hd2]

/-- Unfolding equation for `natDigits`. -/
theorem natDigits_eq (n : Nat) :
    natDigits n = if n < 10 then [Char.ofNat (48 + n)]
      else natDigits (n / 10) ++ [Char.ofNat (48 + n % 10)] := by
  show natDigitsAux (n + 1) n = _
  by_cases hn : n < 10
  · simp [natDigitsAux, hn]
  · simp only [natDigitsAux, hn, if_false]
    have : n / 10 < n := Nat.div_lt_self (by omega) (by omega)
    rw [natDigitsAux_irrel n (n / 10 + 1) (n / 10) (by omega) (by omega)]
    rfl

theorem digit_char_isDigit {d : Nat} (h : d < 10) : (Char.ofNat (48 + d)).isDigit = true := by
  interval_cases d <;> decide

theorem digit_char_val {d : Nat} (h : d < 10) : (Char.ofNat (48 + d)).toNat - 48 = d := by
  interval_cases d <;> decide

theorem natDigits_all_digit (n : Nat) : (natDigits n).all Char.isDigit = true := by
  induction n using Nat.strong_induction_on with
  | _ n ih =>
    rw [natDigits_eq]
    by_cases hn : n < 10
    · simp [hn, digit_char_isDigit hn]
    · have hlt : n / 10 < n := Nat.div_lt_self (by omega) (by omega)
      simp only [hn, if_false, List.all_append]
      rw [ih (n / 10) hlt]
      simp [digit_char_isDigit (Nat.mod_lt n (by omega))]

theorem natDigits_ne_nil (n : Nat) : natDigits n ≠ [] := by
  rw [natDigits_eq]
  by_cases hn : n < 10 <;> simp [hn]

theorem digitsVal_append_singleton (ds : List Char) (c : Char) :
    digitsVal (ds ++ [c]) = digitsVal ds * 10 + (c.toNat - 48) := by
  simp [digitsVal, List.foldl_append]

theorem digitsVal_natDigits (n : Nat) : digitsVal (natDigits n) = n := by
  induction n using Nat.strong_induction_on with
  | _ n ih =>
    rw [natDigits_eq]
    by_cases hn : n < 10
    · simp only [hn, if_true]
      show digitsVal ([] ++ [Char.ofNat (48 + n)]) = n
      rw [digitsVal_append_singleton, digit_char_val hn]
      simp [digitsVal]
    · have hlt : n / 10 < n := Nat.div_lt_self (by omega) (by omega)
      simp only [hn, if_false]
      rw [digitsVal_append_singleton, ih (n / 10) hlt,
        digit_char_val (Nat.mod_lt n (by omega))]
      omega

/-! ### Marker tokens

A token is either a literal character or a complete marker match.
`Tok.mark true ds` is a square match `[ds]` of `\[(\d+)\]`;
`Tok.mark false ds` is a round match `(ds)` of `\((\d+)\)`.
The raw digit string is kept so that unreplaced markers re-render verbatim. -/

inductive Tok where
  | lit  (c : Char)
  | mark (sq : Bool) (ds : List Char)
deriving DecidableEq, Repr

/-- Opening bracket of a marker kind. -/
def openC (sq : Bool) : Char := if sq then '[' else '('

/-- Closing bracket of a marker kind. -/
def closeC (sq : Bool) : Char := if sq then ']' else ')'

/-- Literal tokens for a character list. -/
def lits (ds : List Char) : List Tok := ds.map Tok.lit

/-- The marker scanner.  The state is `none` (no pending attempt) or
`some (b, ds)`: an opening bracket of kind `b` was read, followed by the
digits `ds` so far.  This is Python's `re` scan for the two marker patterns:
a pending attempt completes on the matching closing bracket after at least
one digit; on any other character the attempt fails and the scan resumes at
that character (an opening bracket starts a fresh attempt). -/
def tokAux : List Char → Option (Bool × List Char) → List Tok
  | [], none => []
  | [], some (b, ds) => Tok.lit (openC b) :: lits ds
  | c :: cs, none =>
    if c = '[' then tokAux cs (some (true, []))
    else if c = '(' then tokAux cs (some (false, []))
    else Tok.lit c :: tokAux cs none
  | c :: cs, some (b, ds) =>
    if c.isDigit then tokAux cs (some (b, ds ++ [c]))
    else if c = closeC b ∧ ds ≠ [] then Tok.mark b ds :: tokAux cs none
    else if c = '[' then Tok.lit (openC b) :: (lits ds ++ tokAux cs (some (true, [])))
    else if c = '(' then Tok.lit (openC b) :: (lits ds ++ tokAux cs (some (false, [])))
    else Tok.lit (openC b) :: (lits ds ++ (Tok.lit c :: tokAux cs none))

/-- Tokenize a text: all `\[(\d+)\]` and `\((\d+)\)` matches, with the
characters between them as literals. -/
def tokenize (s : List Char) : List Tok := tokAux s none

/-- Re-render a token. -/
def detokTok : Tok → List Char
  | .lit c => [c]
  | .mark b ds => openC b :: (ds ++ [closeC b])

/-- Re-render a token list back to text. -/
def detok : List Tok → List Char
  | [] => []
  | t :: ts => detokTok t ++ detok ts

/-- Values of the square markers of a token list, in order. -/
def sqMarkVals (ts : List Tok) : List Nat :=
  ts.filterMap fun t => match t with
    | .mark true ds => some (digitsVal ds)
    | _ => none

/-- `re.findall(r"\[(\d+)\]", s)` followed by `int(...)` on each group. -/
def sqMarks (s : List Char) : List Nat := sqMarkVals (tokenize s)

/-- Values of the round markers of a token list, in order. -/
def rndMarkVals (ts : List Tok) : List Nat :=
  ts.filterMap fun t => match t with
    | .mark false ds => some (digitsVal ds)
    | _ => none

/-- `re.findall(r"\((\d+)\)", s)` followed by `int(...)` on each group. -/
def rndMarks (s : List Char) : List Nat := rndMarkVals (tokenize s)

/-- Rewrite every square marker value through `g`, re-rendering canonically
(this is what a replacement function returning `f"[{g(n)}]"` produces). -/
def mapSq (g : Nat → Nat) : List Tok → List Tok :=
  List.map fun t => match t with
    | .mark true ds => .mark true (natDigits (g (digitsVal ds)))
    | t => t

/-- Rewrite every round marker value through `g`. -/
def mapRnd (g : Nat → Nat) : List Tok → List Tok :=
  List.map fun t => match t with
    | .mark false ds => .mark false (natDigits (g (digitsVal ds)))
    | t => t

/-- `re.sub(r"\[(\d+)\]", lambda m: f"[{g(int(m.group(1)))}]", s)`. -/
def sqSub (g : Nat → Nat) (s : List Char) : List Char := detok (mapSq g (tokenize s))

/-- `re.sub(r"\((\d+)\)", lambda m: f"({g(int(m.group(1)))})", s)`. -/
def rndSub (g : Nat → Nat) (s : List Char) : List Char := detok (mapRnd g (tokenize s))

/-- `re.sub(r"\[\d+\]", "", s)`: delete every square marker. -/
def sqStrip (s : List Char) : List Char :=
  detok ((tokenize s).filter fun t => match t with
    | .mark true _ => false
    | _ => true)

/-! ### Canonical token lists and retokenization

The results of this section let every `re.sub`/`re.findall` pass after the
first be read off the token list directly: `tokenize` output is canonical
(no marker pattern hides inside its literals), and `tokenize ∘ detok` is the
identity on canonical well-formed token lists. -/

theorem closeC_not_digit (b : Bool) : (closeC b).isDigit = false := by
  cases b <;> decide

theorem openC_not_digit (b : Bool) : (openC b).isDigit = false := by
  cases b <;> decide

theorem openC_ne_closeC (b b2 : Bool) : openC b ≠ closeC b2 := by
  cases b <;> cases b2 <;> decide

theorem closeC_ne_sq (b : Bool) : closeC b ≠ '[' := by cases b <;> decide

theorem closeC_ne_rnd (b : Bool) : closeC b ≠ '(' := by cases b <;> decide

theorem isDigit_ne_sq {c : Char} (h : c.isDigit = true) : c ≠ '[' := by
  intro he; rw [he] at h; exact absurd h (by decide)

theorem isDigit_ne_rnd {c : Char} (h : c.isDigit = true) : c ≠ '(' := by
  intro he; rw [he] at h; exact absurd h (by decide)

/-- Mid-attempt continuation check: does `ts` continue a pending marker
attempt that has already read at least one digit (zero or more further
literal digits, then the literal closing bracket)? -/
def sNBtail (close : Char) : List Tok → Bool
  | .lit c :: r => if c.isDigit then sNBtail close r else decide (c = close)
  | _ => false

/-- Does `ts` start with one or more literal digits followed by the literal
closing bracket `close`? -/
def sNB (close : Char) : List Tok → Bool
  | .lit c :: r => if c.isDigit then sNBtail close r else false
  | _ => false

/-- Would `ts` complete a pending attempt whose accumulated digits are `ds`? -/
def pendBad (close : Char) (ds : List Char) (ts : List Tok) : Bool :=
  if ds.isEmpty then sNB close ts else sNBtail close ts

/-- Canonical token lists: no literal opening bracket is followed by literal
digits and the matching literal closing bracket. Retokenizing the rendering
of a canonical list recovers exactly the original tokens. -/
def canonTok : List Tok → Bool
  | [] => true
  | .lit c :: r =>
    (if c = '[' then !sNB ']' r else if c = '(' then !sNB ')' r else true) && canonTok r
  | .mark _ _ :: r => canonTok r

/-- Well-formed marker payloads: nonempty, all digits. -/
def wfTok : Tok → Bool
  | .lit _ => true
  | .mark _ ds => !ds.isEmpty && ds.all Char.isDigit

def wfToks (ts : List Tok) : Bool := ts.all wfTok

/-- Token lists that a pending attempt can safely precede: empty, or starting
with an opening bracket literal or a marker. -/
def startsSafe : List Tok → Bool
  | [] => true
  | .lit c :: _ => decide (c = '[') || decide (c = '(')
  | .mark _ _ :: _ => true

theorem pendBad_of_startsSafe {ts : List Tok} (h : startsSafe ts = true)
    (b : Bool) (ds : List Char) : pendBad (closeC b) ds ts = false := by
  unfold pendBad
  cases ts with
  | nil => cases ds.isEmpty <;> simp [sNB, sNBtail]
  | cons t r =>
    cases t with
    | lit c =>
      simp only [startsSafe, Bool.or_eq_true, decide_eq_true_eq] at h
      have hnd : c.isDigit = false := by
        rcases h with h | h <;> rw [h] <;> decide
      have hnc : (decide (c = closeC b)) = false := by
        rcases h with h | h <;> rw [h] <;> cases b <;> decide
      cases ds.isEmpty <;> simp [sNB, sNBtail, hnd, hnc]
    | mark b2 ds2 => cases ds.isEmpty <;> simp [sNB, sNBtail]

theorem sNBtail_lits_digits (close : Char) (ds : List Char)
    (h : ds.all Char.isDigit = true) (rest : List Tok) :
    sNBtail close (lits ds ++ rest) = sNBtail close rest := by
  induction ds with
  | nil => simp [lits]
  | cons d ds ih =>
    simp only [List.all_cons, Bool.and_eq_true] at h
    show sNBtail close (Tok.lit d :: (lits ds ++ rest)) = sNBtail close rest
    simp only [sNBtail, h.1, if_true]
    exact ih h.2

theorem canonTok_lits_digits (ds : List Char)
    (h : ds.all Char.isDigit = true) (rest : List Tok) :
    canonTok (lits ds ++ rest) = canonTok rest := by
  induction ds with
  | nil => simp [lits]
  | cons d ds ih =>
    simp only [List.all_cons, Bool.and_eq_true] at h
    have h1 : d ≠ '[' := isDigit_ne_sq h.1
    have h2 : d ≠ '(' := isDigit_ne_rnd h.1
    simp [lits, canonTok, h1, h2] at *
    exact ih h.2

theorem wfToks_lits (ds : List Char) : wfToks (lits ds) = true := by
  induction ds with
  | nil => simp [lits, wfToks]
  | cons d ds ih => simp only [lits, wfToks, List.all_cons, List.map_cons] at ih ⊢; simp [wfTok, ih]

/-- Emitting a failed pending attempt (`[` or `(` plus its digits) in front of
an obstruction-free canonical tail keeps the list canonical. -/
theorem canon_emit (b : Bool) (ds : List Char) (rest : List Tok)
    (hds : ds.all Char.isDigit = true)
    (hbad : pendBad (closeC b) ds rest = false)
    (hrest : canonTok rest = true) :
    canonTok (Tok.lit (openC b) :: (lits ds ++ rest)) = true := by
  have hsnb : sNB (closeC b) (lits ds ++ rest) = false := by
    cases ds with
    | nil =>
      simpa [lits, pendBad] using hbad
    | cons d ds2 =>
      simp only [List.all_cons, Bool.and_eq_true] at hds
      simp only [pendBad, List.isEmpty_cons] at hbad
      show sNB (closeC b) (Tok.lit d :: (lits ds2 ++ rest)) = false
      simp only [sNB, hds.1, if_true]
      rw [sNBtail_lits_digits _ _ hds.2]
      simp at hbad
      exact hbad
  have hcan : canonTok (lits ds ++ rest) = true := by
    rw [canonTok_lits_digits ds hds]; exact hrest
  cases b with
  | true =>
    have hsnb2 : sNB ']' (lits ds ++ rest) = false := by
      rw [show closeC true = ']' from rfl] at hsnb; exact hsnb
    simp [canonTok, openC, hsnb2, hcan]
  | false =>
    have hsnb2 : sNB ')' (lits ds ++ rest) = false := by
      rw [show closeC false = ')' from rfl] at hsnb; exact hsnb
    simp [canonTok, openC, hsnb2, hcan]

/-- Unfolding: step of the scanner outside an attempt. -/
theorem tokAux_cons_none (c : Char) (cs : List Char) :
    tokAux (c :: cs) none =
      (if c = '[' then tokAux cs (some (true, []))
       else if c = '(' then tokAux cs (some (false, []))
       else Tok.lit c :: tokAux cs none) := rfl

/-- Unfolding: step of the scanner inside a pending attempt. -/
theorem tokAux_cons_some (c : Char) (cs : List Char) (b : Bool) (ds : List Char) :
    tokAux (c :: cs) (some (b, ds)) =
      (if c.isDigit then tokAux cs (some (b, ds ++ [c]))
       else if c = closeC b ∧ ds ≠ [] then Tok.mark b ds :: tokAux cs none
       else if c = '[' then Tok.lit (openC b) :: (lits ds ++ tokAux cs (some (true, [])))
       else if c = '(' then Tok.lit (openC b) :: (lits ds ++ tokAux cs (some (false, [])))
       else Tok.lit (openC b) :: (lits ds ++ (Tok.lit c :: tokAux cs none))) := rfl

/-- Scanning a run of digits inside a pending attempt up to the closing
bracket produces the marker with all accumulated digits. -/
theorem tokAux_digit_run (ds2 : List Char) : ∀ (acc : List Char) (b : Bool) (rest : List Char),
    ds2.all Char.isDigit = true → acc ++ ds2 ≠ [] →
    tokAux (ds2 ++ (closeC b :: rest)) (some (b, acc)) =
      Tok.mark b (acc ++ ds2) :: tokAux rest none := by
  induction ds2 with
  | nil =>
    intro acc b rest _ hne
    simp only [List.append_nil] at hne ⊢
    rw [List.nil_append, tokAux_cons_some]
    simp [closeC_not_digit b, hne]
  | cons d ds2 ih =>
    intro acc b rest hdig hne
    simp only [List.all_cons, Bool.and_eq_true] at hdig
    rw [List.cons_append, tokAux_cons_some]
    simp only [hdig.1, if_true]
    rw [ih (acc ++ [d]) b rest hdig.2 (by simp)]
    simp

/-- The scanner's output is canonical and well-formed, and output produced
from inside a pending attempt starts safely. -/
theorem tokAux_canon_wf (s : List Char) : ∀ st : Option (Bool × List Char),
    (match st with | none => True | some (_, ds) => ds.all Char.isDigit = true) →
    canonTok (tokAux s st) = true ∧ wfToks (tokAux s st) = true ∧
      (match st with | none => True | some _ => startsSafe (tokAux s st) = true) := by
  induction s with
  | nil =>
    intro st hst
    match st with
    | none => simp [tokAux, canonTok, wfToks]
    | some (b, ds) =>
      refine ⟨?_, ?_, ?_⟩
      · show canonTok (Tok.lit (openC b) :: lits ds) = true
        have := canon_emit b ds [] hst (by cases ds <;> simp [pendBad, sNB, sNBtail])
          (by simp [canonTok])
        simpa using this
      · show wfToks (Tok.lit (openC b) :: lits ds) = true
        simp only [wfToks, List.all_cons, Bool.and_eq_true]
        exact ⟨rfl, wfToks_lits ds⟩
      · show startsSafe (Tok.lit (openC b) :: lits ds) = true
        cases b <;> simp [startsSafe, openC]
  | cons c cs ih =>
    intro st hst
    match st with
    | none =>
      rw [tokAux_cons_none]
      by_cases h1 : c = '['
      · simp only [h1, if_true]
        have := ih (some (true, [])) (by simp)
        exact ⟨this.1, this.2.1, trivial⟩
      · simp only [h1, if_false]
        by_cases h2 : c = '('
        · simp only [h2, if_true]
          have := ih (some (false, [])) (by simp)
          exact ⟨this.1, this.2.1, trivial⟩
        · simp only [h2, if_false]
          have := ih none trivial
          refine ⟨?_, ?_, trivial⟩
          · simp [canonTok, h1, h2, this.1]
          · simp only [wfToks, List.all_cons, Bool.and_eq_true]
            exact ⟨rfl, this.2.1⟩
    | some (b, ds) =>
      rw [tokAux_cons_some]
      by_cases h1 : c.isDigit
      · simp only [h1, if_true]
        have := ih (some (b, ds ++ [c])) (by simp_all)
        exact ⟨this.1, this.2.1, this.2.2⟩
      · rw [if_neg h1]
        by_cases h2 : c = closeC b ∧ ds ≠ []
        · rw [if_pos h2]
          have := ih none trivial
          refine ⟨?_, ?_, ?_⟩
          · exact this.1
          · simp only [wfToks, List.all_cons, Bool.and_eq_true]
            refine ⟨?_, this.2.1⟩
            show wfTok (Tok.mark b ds) = true
            simp only [wfTok, Bool.and_eq_true]
            refine ⟨?_, hst⟩
            cases ds with
            | nil => exact absurd rfl h2.2
            | cons d0 ds0 => simp
          · simp [startsSafe]
        · rw [if_neg h2]
          by_cases h3 : c = '['
          · rw [if_pos h3]
            have := ih (some (true, [])) (by simp)
            refine ⟨?_, ?_, ?_⟩
            · exact canon_emit b ds _ hst
                (pendBad_of_startsSafe this.2.2 b ds) this.1
            · simp only [wfToks, List.all_cons, List.all_append, Bool.and_eq_true]
              exact ⟨rfl, by
                have hl := wfToks_lits ds
                have ht := this.2.1
                simp only [wfToks] at hl ht
                exact ⟨hl, ht⟩⟩
            · cases b <;> simp [startsSafe, openC]
          · rw [if_neg h3]
            by_cases h4 : c = '('
            · rw [if_pos h4]
              have := ih (some (false, [])) (by simp)
              refine ⟨?_, ?_, ?_⟩
              · exact canon_emit b ds _ hst
                  (pendBad_of_startsSafe this.2.2 b ds) this.1
              · simp only [wfToks, List.all_cons, List.all_append, Bool.and_eq_true]
                exact ⟨rfl, by
                  have hl := wfToks_lits ds
                  have ht := this.2.1
                  simp only [wfToks] at hl ht
                  exact ⟨hl, ht⟩⟩
              · cases b <;> simp [startsSafe, openC]
            · rw [if_neg h4]
              have := ih none trivial
              refine ⟨?_, ?_, ?_⟩
              · refine canon_emit b ds _ hst ?_ ?_
                · cases ds with
                  | nil => simp [pendBad, sNB, h1]
                  | cons d0 ds0 =>
                    have hcc : c ≠ closeC b := fun hcc => h2 ⟨hcc, by simp⟩
                    simp [pendBad, sNBtail, h1, hcc]
                · simp [canonTok, h3, h4, this.1]
              · simp only [wfToks, List.all_cons, List.all_append, Bool.and_eq_true]
                refine ⟨rfl, ?_, rfl, ?_⟩
                · have hl := wfToks_lits ds
                  simp only [wfToks] at hl
                  exact hl
                · have ht := this.2.1
                  simp only [wfToks] at ht
                  exact ht
              · cases b <;> simp [startsSafe, openC]

theorem canon_cons_lit {c : Char} {r : List Tok} (h : canonTok (Tok.lit c :: r) = true) :
    canonTok r = true := by
  simp only [canonTok, Bool.and_eq_true] at h
  exact h.2

theorem canon_cons_lit_sq {r : List Tok} (h : canonTok (Tok.lit '[' :: r) = true) :
    sNB ']' r = false := by
  simp only [canonTok, if_pos, Bool.and_eq_true] at h
  simpa using h.1

theorem canon_cons_lit_rnd {r : List Tok} (h : canonTok (Tok.lit '(' :: r) = true) :
    sNB ')' r = false := by
  simp only [canonTok, Bool.and_eq_true] at h
  have h1 := h.1
  rw [if_neg (by decide)] at h1
  simpa using h1

theorem wf_cons {t : Tok} {r : List Tok} (h : wfToks (t :: r) = true) :
    wfTok t = true ∧ wfToks r = true := by
  simp only [wfToks, List.all_cons, Bool.and_eq_true] at h
  exact h

/-- Retokenizing the rendering of a canonical, well-formed token list
(optionally inside a pending attempt that the list cannot complete) recovers
exactly the original tokens. -/
theorem tokAux_detok (ts : List Tok) : ∀ st : Option (Bool × List Char),
    canonTok ts = true → wfToks ts = true →
    (match st with
     | none => True
     | some (b, ds) => ds.all Char.isDigit = true ∧ pendBad (closeC b) ds ts = false) →
    tokAux (detok ts) st =
      (match st with
       | none => ([] : List Tok)
       | some (b, ds) => Tok.lit (openC b) :: lits ds) ++ ts := by
  induction ts with
  | nil =>
    intro st hc hw hst
    match st with
    | none => simp [detok, tokAux]
    | some (b, ds) => simp [detok, tokAux]
  | cons t r ih =>
    intro st hc hw hst
    cases t with
    | lit c =>
      have hcr : canonTok r = true := canon_cons_lit hc
      have hwr : wfToks r = true := (wf_cons hw).2
      have hdetok : detok (Tok.lit c :: r) = c :: detok r := by simp [detok, detokTok]
      rw [hdetok]
      match st with
      | none =>
        rw [tokAux_cons_none]
        by_cases h1 : c = '['
        · subst h1
          rw [if_pos rfl]
          rw [ih (some (true, [])) hcr hwr
            ⟨by simp, by
              show pendBad (closeC true) [] r = false
              simp only [pendBad, List.isEmpty_nil, if_pos]
              exact canon_cons_lit_sq hc⟩]
          simp [lits, openC]
        · rw [if_neg h1]
          by_cases h2 : c = '('
          · subst h2
            rw [if_pos rfl]
            rw [ih (some (false, [])) hcr hwr
              ⟨by simp, by
                show pendBad (closeC false) [] r = false
                simp only [pendBad, List.isEmpty_nil, if_pos]
                exact canon_cons_lit_rnd hc⟩]
            simp [lits, openC]
          · rw [if_neg h2, ih none hcr hwr trivial]
            simp
      | some (b2, ds2) =>
        obtain ⟨hdig, hbad⟩ := hst
        rw [tokAux_cons_some]
        by_cases h1 : c.isDigit
        · rw [if_pos h1]
          have hb2 : pendBad (closeC b2) (ds2 ++ [c]) r = false := by
            simp only [pendBad]
            have : sNBtail (closeC b2) r = false := by
              cases ds2 with
              | nil =>
                have := hbad
                simp only [pendBad, List.isEmpty_nil, if_pos] at this
                simp only [sNB, h1, if_true] at this
                exact this
              | cons d0 ds0 =>
                have := hbad
                simp only [pendBad, List.isEmpty_cons] at this
                rw [if_neg (by simp)] at this
                simp only [sNBtail, h1, if_true] at this
                exact this
            rw [if_neg (by simp)]
            exact this
          rw [ih (some (b2, ds2 ++ [c])) hcr hwr ⟨by simp [hdig, h1], hb2⟩]
          simp [lits]
        · rw [if_neg h1]
          have hnot2 : ¬(c = closeC b2 ∧ ds2 ≠ []) := by
            rintro ⟨hcc, hne⟩
            have : pendBad (closeC b2) ds2 (Tok.lit c :: r) = true := by
              cases ds2 with
              | nil => exact absurd rfl hne
              | cons d0 ds0 =>
                simp only [pendBad, List.isEmpty_cons]
                rw [if_neg (by simp)]
                subst hcc
                simp [sNBtail, closeC_not_digit b2]
            rw [hbad] at this
            exact Bool.false_ne_true this
          rw [if_neg hnot2]
          by_cases h3 : c = '['
          · subst h3
            rw [if_pos rfl]
            rw [ih (some (true, [])) hcr hwr
              ⟨by simp, by
                show pendBad (closeC true) [] r = false
                simp only [pendBad, List.isEmpty_nil, if_pos]
                exact canon_cons_lit_sq hc⟩]
            simp [lits, openC]
          · rw [if_neg h3]
            by_cases h4 : c = '('
            · subst h4
              rw [if_pos rfl]
              rw [ih (some (false, [])) hcr hwr
                ⟨by simp, by
                  show pendBad (closeC false) [] r = false
                  simp only [pendBad, List.isEmpty_nil, if_pos]
                  exact canon_cons_lit_rnd hc⟩]
              simp [lits, openC]
            · rw [if_neg h4, ih none hcr hwr trivial]
              simp [lits]
    | mark bm dsm =>
      have hcr : canonTok r = true := hc
      have hwm := wf_cons hw
      have hwr : wfToks r = true := hwm.2
      have hdsm : dsm ≠ [] ∧ dsm.all Char.isDigit = true := by
        have := hwm.1
        simp only [wfTok, Bool.and_eq_true] at this
        refine ⟨?_, this.2⟩
        have h1 := this.1
        cases dsm with
        | nil => simp at h1
        | cons d0 ds0 => simp
      have hdetok : detok (Tok.mark bm dsm :: r) =
          openC bm :: (dsm ++ (closeC bm :: detok r)) := by
        simp [detok, detokTok]
      rw [hdetok]
      have hrun : tokAux (dsm ++ (closeC bm :: detok r)) (some (bm, [])) =
          Tok.mark bm dsm :: tokAux (detok r) none := by
        have := tokAux_digit_run dsm [] bm (detok r) hdsm.2 (by simpa using hdsm.1)
        simpa using this
      have hihr : tokAux (detok r) none = r := by
        simpa using ih none hcr hwr trivial
      match st with
      | none =>
        rw [tokAux_cons_none]
        cases bm with
        | true =>
          rw [if_pos (show openC true = '[' by rfl)]
          rw [hrun, hihr]
          simp
        | false =>
          rw [if_neg (show ¬openC false = '[' by decide),
            if_pos (show openC false = '(' by rfl)]
          rw [hrun, hihr]
          simp
      | some (b2, ds2) =>
        obtain ⟨hdig, hbad⟩ := hst
        rw [tokAux_cons_some]
        rw [if_neg (by rw [openC_not_digit bm]; simp)]
        rw [if_neg (fun h => openC_ne_closeC bm b2 h.1)]
        cases bm with
        | true =>
          rw [if_pos (show openC true = '[' by rfl)]
          rw [hrun, hihr]
          simp [lits]
        | false =>
          rw [if_neg (show ¬openC false = '[' by decide),
            if_pos (show openC false = '(' by rfl)]
          rw [hrun, hihr]
          simp [lits]

theorem tokenize_canon (s : List Char) : canonTok (tokenize s) = true :=
  (tokAux_canon_wf s none trivial).1

theorem tokenize_wf (s : List Char) : wfToks (tokenize s) = true :=
  (tokAux_canon_wf s none trivial).2.1

/-- Retokenizing a rendered canonical well-formed token list is the identity. -/
theorem retokenize {ts : List Tok} (h1 : canonTok ts = true) (h2 : wfToks ts = true) :
    tokenize (detok ts) = ts := by
  simpa using tokAux_detok ts none h1 h2 trivial

theorem sNBtail_mapSq (g : Nat → Nat) (c : Char) (ts : List Tok) :
    sNBtail c (mapSq g ts) = sNBtail c ts := by
  induction ts with
  | nil => simp [mapSq]
  | cons t r ih =>
    cases t with
    | lit c2 =>
      show sNBtail c (Tok.lit c2 :: mapSq g r) = sNBtail c (Tok.lit c2 :: r)
      simp only [sNBtail]
      rw [ih]
    | mark b ds => cases b <;> simp [mapSq, sNBtail]

theorem sNB_mapSq (g : Nat → Nat) (c : Char) (ts : List Tok) :
    sNB c (mapSq g ts) = sNB c ts := by
  cases ts with
  | nil => simp [mapSq]
  | cons t r =>
    cases t with
    | lit c2 =>
      show sNB c (Tok.lit c2 :: mapSq g r) = sNB c (Tok.lit c2 :: r)
      simp only [sNB]
      rw [sNBtail_mapSq]
    | mark b ds => cases b <;> simp [mapSq, sNB]

theorem canon_mapSq (g : Nat → Nat) (ts : List Tok) :
    canonTok (mapSq g ts) = canonTok ts := by
  induction ts with
  | nil => simp [mapSq]
  | cons t r ih =>
    cases t with
    | lit c =>
      show canonTok (Tok.lit c :: mapSq g r) = canonTok (Tok.lit c :: r)
      simp only [canonTok]
      rw [ih, sNB_mapSq, sNB_mapSq]
    | mark b ds =>
      cases b with
      | true =>
        show canonTok (Tok.mark true (natDigits (g (digitsVal ds))) :: mapSq g r) =
          canonTok (Tok.mark true ds :: r)
        simp only [canonTok]
        exact ih
      | false =>
        show canonTok (Tok.mark false ds :: mapSq g r) = canonTok (Tok.mark false ds :: r)
        simp only [canonTok]
        exact ih

theorem wf_mapSq (g : Nat → Nat) {ts : List Tok} (h : wfToks ts = true) :
    wfToks (mapSq g ts) = true := by
  induction ts with
  | nil => simp [mapSq, wfToks]
  | cons t r ih =>
    have hco := wf_cons h
    have ihr := ih hco.2
    cases t with
    | lit c =>
      simp only [mapSq, List.map_cons, wfToks, List.all_cons, Bool.and_eq_true] at ihr ⊢
      exact ⟨rfl, ihr⟩
    | mark b ds =>
      cases b with
      | true =>
        simp only [mapSq, List.map_cons, wfToks, List.all_cons, Bool.and_eq_true] at ihr ⊢
        refine ⟨?_, ihr⟩
        simp only [wfTok, Bool.and_eq_true]
        refine ⟨?_, natDigits_all_digit _⟩
        have := natDigits_ne_nil (g (digitsVal ds))
        cases hnd : natDigits (g (digitsVal ds)) with
        | nil => exact absurd hnd this
        | cons d0 ds0 => simp
      | false =>
        simp only [mapSq, List.map_cons, wfToks, List.all_cons, Bool.and_eq_true] at ihr ⊢
        exact ⟨hco.1, ihr⟩

/-- Retokenizing the output of a square-marker substitution reads back the
substituted token list. -/
theorem tokenize_sqSub (g : Nat → Nat) (s : List Char) :
    tokenize (sqSub g s) = mapSq g (tokenize s) :=
  retokenize (by rw [canon_mapSq]; exact tokenize_canon s) (wf_mapSq g (tokenize_wf s))

theorem sqMarkVals_mapSq (g : Nat → Nat) (ts : List Tok) :
    sqMarkVals (mapSq g ts) = (sqMarkVals ts).map g := by
  induction ts with
  | nil => rfl
  | cons t r ih =>
    cases t with
    | lit c =>
      show sqMarkVals (mapSq g r) = (sqMarkVals r).map g
      exact ih
    | mark b ds =>
      cases b with
      | true =>
        show digitsVal (natDigits (g (digitsVal ds))) :: sqMarkVals (mapSq g r) =
          g (digitsVal ds) :: (sqMarkVals r).map g
        rw [digitsVal_natDigits, ih]
      | false =>
        show sqMarkVals (mapSq g r) = (sqMarkVals r).map g
        exact ih

/-- After `re.sub(r"\[(\d+)\]", ...)` with replacement value `g`, the square
markers found in the text are exactly the original markers mapped by `g`. -/
theorem sqMarks_sqSub (g : Nat → Nat) (s : List Char) :
    sqMarks (sqSub g s) = (sqMarks s).map g := by
  unfold sqMarks
  rw [tokenize_sqSub]
  exact sqMarkVals_mapSq g (tokenize s)

/-! ### Collapse of immediately repeated markers -/

/-- State machine for `re.sub(r"(\[\d+\])(?:\1)+", r"\1", s)`: drop a square
marker when the immediately preceding token is the identical square marker. -/
def collapseAux : Option (List Char) → List Tok → List Tok
  | _, [] => []
  | prev, .mark true ds :: rest =>
    if prev = some ds then collapseAux (some ds) rest
    else Tok.mark true ds :: collapseAux (some ds) rest
  | _, .lit c :: rest => Tok.lit c :: collapseAux none rest
  | _, .mark false ds :: rest => Tok.mark false ds :: collapseAux none rest

/-- `re.sub(r"(\[\d+\])(?:\1)+", r"\1", s)`: collapse runs of immediately
repeated identical square markers to a single copy. -/
def collapseSq (s : List Char) : List Char := detok (collapseAux none (tokenize s))

theorem sNBtail_collapse (c : Char) (ts : List Tok) :
    sNBtail c (collapseAux none ts) = sNBtail c ts := by
  induction ts with
  | nil => simp [collapseAux]
  | cons t r ih =>
    cases t with
    | lit c2 => simp only [collapseAux, sNBtail]; rw [ih]
    | mark b ds => cases b <;> simp [collapseAux, sNBtail]

theorem sNB_collapse (c : Char) (ts : List Tok) :
    sNB c (collapseAux none ts) = sNB c ts := by
  cases ts with
  | nil => simp [collapseAux]
  | cons t r =>
    cases t with
    | lit c2 => simp only [collapseAux, sNB]; rw [sNBtail_collapse]
    | mark b ds => cases b <;> simp [collapseAux, sNB]

theorem canon_collapse (ts : List Tok) : ∀ prev, canonTok ts = true →
    canonTok (collapseAux prev ts) = true := by
  induction ts with
  | nil => intro prev _; simp [collapseAux, canonTok]
  | cons t r ih =>
    intro prev hc
    cases t with
    | lit c =>
      show canonTok (Tok.lit c :: collapseAux none r) = true
      simp only [canonTok, Bool.and_eq_true] at hc ⊢
      refine ⟨?_, ih none hc.2⟩
      rcases hc with ⟨h1, _⟩
      by_cases hb1 : c = '['
      · subst hb1
        rw [if_pos rfl] at h1 ⊢
        rw [sNB_collapse]
        exact h1
      · rw [if_neg hb1] at h1 ⊢
        by_cases hb2 : c = '('
        · subst hb2
          rw [if_pos rfl] at h1 ⊢
          rw [sNB_collapse]
          exact h1
        · rw [if_neg hb2]

    | mark b ds =>
      cases b with
      | true =>
        show canonTok (if prev = some ds then collapseAux (some ds) r
          else Tok.mark true ds :: collapseAux (some ds) r) = true
        have hcr : canonTok r = true := hc
        by_cases hp : prev = some ds
        · rw [if_pos hp]; exact ih (some ds) hcr
        · rw [if_neg hp]
          show canonTok (collapseAux (some ds) r) = true
          exact ih (some ds) hcr
      | false =>
        show canonTok (Tok.mark false ds :: collapseAux none r) = true
        exact ih none hc

theorem wf_collapse (ts : List Tok) : ∀ prev, wfToks ts = true →
    wfToks (collapseAux prev ts) = true := by
  induction ts with
  | nil => intro prev _; simp [collapseAux, wfToks]
  | cons t r ih =>
    intro prev hw
    have hco := wf_cons hw
    cases t with
    | lit c =>
      show wfToks (Tok.lit c :: collapseAux none r) = true
      simp only [wfToks, List.all_cons, Bool.and_eq_true]
      exact ⟨rfl, ih none hco.2⟩
    | mark b ds =>
      cases b with
      | true =>
        show wfToks (if prev = some ds then collapseAux (some ds) r
          else Tok.mark true ds :: collapseAux (some ds) r) = true
        by_cases hp : prev = some ds
        · rw [if_pos hp]; exact ih (some ds) hco.2
        · rw [if_neg hp]
          simp only [wfToks, List.all_cons, Bool.and_eq_true]
          exact ⟨hco.1, ih (some ds) hco.2⟩
      | false =>
        show wfToks (Tok.mark false ds :: collapseAux none r) = true
        simp only [wfToks, List.all_cons, Bool.and_eq_true]
        exact ⟨hco.1, ih none hco.2⟩

theorem sqMarkVals_collapse_sub (ts : List Tok) : ∀ prev v,
    v ∈ sqMarkVals (collapseAux prev ts) → v ∈ sqMarkVals ts := by
  induction ts with
  | nil => intro prev v h; simp [collapseAux, sqMarkVals] at h
  | cons t r ih =>
    intro prev v h
    cases t with
    | lit c =>
      simp only [collapseAux, sqMarkVals, List.filterMap_cons] at h ⊢
      exact ih none v h
    | mark b ds =>
      cases b with
      | true =>
        simp only [sqMarkVals, List.filterMap_cons]
        by_cases hp : prev = some ds
        · rw [show collapseAux prev (Tok.mark true ds :: r) = collapseAux (some ds) r by
            simp [collapseAux, hp]] at h
          exact List.mem_cons_of_mem _ (ih (some ds) v h)
        · rw [show collapseAux prev (Tok.mark true ds :: r) =
            Tok.mark true ds :: collapseAux (some ds) r by simp [collapseAux, hp]] at h
          simp only [sqMarkVals, List.filterMap_cons] at h
          rcases List.mem_cons.1 h with h | h
          · exact List.mem_cons.2 (Or.inl h)
          · exact List.mem_cons_of_mem _ (ih (some ds) v h)
      | false =>
        simp only [collapseAux, sqMarkVals, List.filterMap_cons] at h ⊢
        exact ih none v h

/-- Square markers surviving the collapse pass are a subset of the markers
present before it. -/
theorem sqMarks_collapseSq (s : List Char) :
    ∀ v ∈ sqMarks (collapseSq s), v ∈ sqMarks s := by
  intro v h
  unfold sqMarks collapseSq at *
  rw [retokenize (canon_collapse _ none (tokenize_canon s))
    (wf_collapse _ none (tokenize_wf s))] at h
  exact sqMarkVals_collapse_sub _ none v h

/-! ### Round-marker substitution (HTTP layer) -/

theorem sNBtail_mapRnd (g : Nat → Nat) (c : Char) (ts : List Tok) :
    sNBtail c (mapRnd g ts) = sNBtail c ts := by
  induction ts with
  | nil => simp [mapRnd]
  | cons t r ih =>
    cases t with
    | lit c2 =>
      show sNBtail c (Tok.lit c2 :: mapRnd g r) = sNBtail c (Tok.lit c2 :: r)
      simp only [sNBtail]
      rw [ih]
    | mark b ds => cases b <;> simp [mapRnd, sNBtail]

theorem sNB_mapRnd (g : Nat → Nat) (c : Char) (ts : List Tok) :
    sNB c (mapRnd g ts) = sNB c ts := by
  cases ts with
  | nil => simp [mapRnd]
  | cons t r =>
    cases t with
    | lit c2 =>
      show sNB c (Tok.lit c2 :: mapRnd g r) = sNB c (Tok.lit c2 :: r)
      simp only [sNB]
      rw [sNBtail_mapRnd]
    | mark b ds => cases b <;> simp [mapRnd, sNB]

theorem canon_mapRnd (g : Nat → Nat) (ts : List Tok) :
    canonTok (mapRnd g ts) = canonTok ts := by
  induction ts with
  | nil => simp [mapRnd]
  | cons t r ih =>
    cases t with
    | lit c =>
      show canonTok (Tok.lit c :: mapRnd g r) = canonTok (Tok.lit c :: r)
      simp only [canonTok]
      rw [ih, sNB_mapRnd, sNB_mapRnd]
    | mark b ds =>
      cases b with
      | true =>
        show canonTok (Tok.mark true ds :: mapRnd g r) = canonTok (Tok.mark true ds :: r)
        simp only [canonTok]
        exact ih
      | false =>
        show canonTok (Tok.mark false (natDigits (g (digitsVal ds))) :: mapRnd g r) =
          canonTok (Tok.mark false ds :: r)
        simp only [canonTok]
        exact ih

theorem wf_mapRnd (g : Nat → Nat) {ts : List Tok} (h : wfToks ts = true) :
    wfToks (mapRnd g ts) = true := by
  induction ts with
  | nil => simp [mapRnd, wfToks]
  | cons t r ih =>
    have hco := wf_cons h
    have ihr := ih hco.2
    cases t with
    | lit c =>
      simp only [mapRnd, List.map_cons, wfToks, List.all_cons, Bool.and_eq_true] at ihr ⊢
      exact ⟨rfl, ihr⟩
    | mark b ds =>
      cases b with
      | false =>
        simp only [mapRnd, List.map_cons, wfToks, List.all_cons, Bool.and_eq_true] at ihr ⊢
        refine ⟨?_, ihr⟩
        simp only [wfTok, Bool.and_eq_true]
        refine ⟨?_, natDigits_all_digit _⟩
        have := natDigits_ne_nil (g (digitsVal ds))
        cases hnd : natDigits (g (digitsVal ds)) with
        | nil => exact absurd hnd this
        | cons d0 ds0 => simp
      | true =>
        simp only [mapRnd, List.map_cons, wfToks, List.all_cons, Bool.and_eq_true] at ihr ⊢
        exact ⟨hco.1, ihr⟩

theorem tokenize_rndSub (g : Nat → Nat) (s : List Char) :
    tokenize (rndSub g s) = mapRnd g (tokenize s) :=
  retokenize (by rw [canon_mapRnd]; exact tokenize_canon s) (wf_mapRnd g (tokenize_wf s))

theorem rndMarkVals_mapRnd (g : Nat → Nat) (ts : List Tok) :
    rndMarkVals (mapRnd g ts) = (rndMarkVals ts).map g := by
  induction ts with
  | nil => rfl
  | cons t r ih =>
    cases t with
    | lit c =>
      show rndMarkVals (mapRnd g r) = (rndMarkVals r).map g
      exact ih
    | mark b ds =>
      cases b with
      | false =>
        show digitsVal (natDigits (g (digitsVal ds))) :: rndMarkVals (mapRnd g r) =
          g (digitsVal ds) :: (rndMarkVals r).map g
        rw [digitsVal_natDigits, ih]
      | true =>
        show rndMarkVals (mapRnd g r) = (rndMarkVals r).map g
        exact ih

theorem sqMarkVals_mapRnd (g : Nat → Nat) (ts : List Tok) :
    sqMarkVals (mapRnd g ts) = sqMarkVals ts := by
  induction ts with
  | nil => rfl
  | cons t r ih =>
    cases t with
    | lit c => exact ih
    | mark b ds =>
      cases b with
      | false => exact ih
      | true =>
        show digitsVal ds :: sqMarkVals (mapRnd g r) = digitsVal ds :: sqMarkVals r
        rw [ih]

theorem rndMarkVals_mapSq (g : Nat → Nat) (ts : List Tok) :
    rndMarkVals (mapSq g ts) = rndMarkVals ts := by
  induction ts with
  | nil => rfl
  | cons t r ih =>
    cases t with
    | lit c => exact ih
    | mark b ds =>
      cases b with
      | true => exact ih
      | false =>
        show digitsVal ds :: rndMarkVals (mapSq g r) = digitsVal ds :: rndMarkVals r
        rw [ih]

theorem rndMarks_rndSub (g : Nat → Nat) (s : List Char) :
    rndMarks (rndSub g s) = (rndMarks s).map g := by
  unfold rndMarks
  rw [tokenize_rndSub]
  exact rndMarkVals_mapRnd g (tokenize s)

theorem sqMarks_rndSub (g : Nat → Nat) (s : List Char) :
    sqMarks (rndSub g s) = sqMarks s := by
  unfold sqMarks
  rw [tokenize_rndSub]
  exact sqMarkVals_mapRnd g (tokenize s)

theorem rndMarks_sqSub (g : Nat → Nat) (s : List Char) :
    rndMarks (sqSub g s) = rndMarks s := by
  unfold rndMarks
  rw [tokenize_sqSub]
  exact rndMarkVals_mapSq g (tokenize s)

/-! ### Texts without stray square brackets -/

/-- If a text contains no `[` at all, the scanner can never complete a square
marker in it. -/
theorem no_sq_mark_of_no_bracket (s : List Char) : ∀ st : Option (Bool × List Char),
    '[' ∉ s →
    (match st with | some (true, _) => False | _ => True) →
    ∀ ds, Tok.mark true ds ∉ tokAux s st := by
  induction s with
  | nil =>
    intro st hmem hst ds
    match st with
    | none => simp [tokAux]
    | some (false, ds2) =>
      show Tok.mark true ds ∉ Tok.lit (openC false) :: lits ds2
      intro h
      rcases List.mem_cons.1 h with h | h
      · exact Tok.noConfusion h
      · simp only [lits, List.mem_map] at h
        obtain ⟨c, _, hc⟩ := h
        exact Tok.noConfusion hc
  | cons c cs ih =>
    intro st hmem hst ds
    have hc : c ≠ '[' := fun he => hmem (he ▸ List.mem_cons_self c cs)
    have hcs : '[' ∉ cs := fun hm => hmem (List.mem_cons_of_mem c hm)
    match st with
    | none =>
      rw [tokAux_cons_none, if_neg hc]
      by_cases h2 : c = '('
      · rw [if_pos h2]
        exact ih (some (false, [])) hcs trivial ds
      · rw [if_neg h2]
        intro h
        rcases List.mem_cons.1 h with h | h
        · exact Tok.noConfusion h
        · exact ih none hcs trivial ds h
    | some (false, ds2) =>
      rw [tokAux_cons_some]
      by_cases h1 : c.isDigit
      · rw [if_pos h1]
        exact ih (some (false, ds2 ++ [c])) hcs trivial ds
      · rw [if_neg h1]
        by_cases h2 : c = closeC false ∧ ds2 ≠ []
        · rw [if_pos h2]
          intro h
          rcases List.mem_cons.1 h with h | h
          · exact Bool.noConfusion (Tok.mark.inj h).1
          · exact ih none hcs trivial ds h
        · rw [if_neg h2, if_neg hc]
          by_cases h3 : c = '('
          · rw [if_pos h3]
            intro h
            rcases List.mem_cons.1 h with h | h
            · exact Tok.noConfusion h
            · rcases List.mem_append.1 h with h | h
              · simp only [lits, List.mem_map] at h
                obtain ⟨c2, _, hc2⟩ := h
                exact Tok.noConfusion hc2
              · exact ih (some (false, [])) hcs trivial ds h
          · rw [if_neg h3]
            intro h
            rcases List.mem_cons.1 h with h | h
            · exact Tok.noConfusion h
            · rcases List.mem_append.1 h with h | h
              · simp only [lits, List.mem_map] at h
                obtain ⟨c2, _, hc2⟩ := h
                exact Tok.noConfusion hc2
              · rcases List.mem_cons.1 h with h | h
                · exact Tok.noConfusion h
                · exact ih none hcs trivial ds h

/-- A token list with no square markers has no square marker values. -/
theorem sqMarkVals_nil_of_no_mark {ts : List Tok}
    (h : ∀ ds, Tok.mark true ds ∉ ts) : sqMarkVals ts = [] := by
  induction ts with
  | nil => rfl
  | cons t r ih =>
    have hr : ∀ ds, Tok.mark true ds ∉ r := fun ds hm => h ds (List.mem_cons_of_mem t hm)
    cases t with
    | lit c => exact ih hr
    | mark b ds =>
      cases b with
      | true => exact absurd (List.mem_cons_self _ _) (h ds)
      | false => exact ih hr

/-- Rendering a well-formed token list that contains neither a literal `[`
nor a square marker produces a text without `[`. -/
theorem no_bracket_detok {ts : List Tok} (hwf : wfToks ts = true)
    (hlit : Tok.lit '[' ∉ ts) (hmark : ∀ ds, Tok.mark true ds ∉ ts) :
    '[' ∉ detok ts := by
  induction ts with
  | nil => simp [detok]
  | cons t r ih =>
    have hco := wf_cons hwf
    have hlr : Tok.lit '[' ∉ r := fun hm => hlit (List.mem_cons_of_mem t hm)
    have hmr : ∀ ds, Tok.mark true ds ∉ r := fun ds hm => hmark ds (List.mem_cons_of_mem t hm)
    have ihr := ih hco.2 hlr hmr
    cases t with
    | lit c =>
      have hcne : c ≠ '[' := fun he => hlit (he ▸ List.mem_cons_self _ _)
      show '[' ∉ c :: detok r
      intro h
      rcases List.mem_cons.1 h with h | h
      · exact hcne h.symm
      · exact ihr h
    | mark b ds =>
      cases b with
      | true => exact absurd (List.mem_cons_self _ _) (hmark ds)
      | false =>
        show '[' ∉ '(' :: (ds ++ [')']) ++ detok r
        intro h
        rcases List.mem_append.1 h with h | h
        · rcases List.mem_cons.1 h with h | h
          · exact absurd h.symm (by decide)
          · rcases List.mem_append.1 h with h | h
            · have hdig := hco.1
              simp only [wfTok, Bool.and_eq_true, List.all_eq_true] at hdig
              have := hdig.2 '[' h
              exact absurd this (by decide)
            · rcases List.mem_singleton.1 h with h
              exact absurd h (by decide)
        · exact ihr h

/-- Stripping all square markers from a text that has no stray `[` outside
its markers leaves a text with no square markers at all. -/
theorem sqMarks_sqStrip_nil {s : List Char} (hstray : Tok.lit '[' ∉ tokenize s) :
    sqMarks (sqStrip s) = [] := by
  have hwf : wfToks ((tokenize s).filter fun t => match t with
      | Tok.mark true _ => false
      | _ => true) = true := by
    have h := tokenize_wf s
    simp only [wfToks, List.all_eq_true] at h ⊢
    intro t ht
    exact h t (List.mem_of_mem_filter ht)
  have hlit : Tok.lit '[' ∉ (tokenize s).filter fun t => match t with
      | Tok.mark true _ => false
      | _ => true := fun hm => hstray (List.mem_of_mem_filter hm)
  have hmark : ∀ ds, Tok.mark true ds ∉ (tokenize s).filter fun t => match t with
      | Tok.mark true _ => false
      | _ => true := by
    intro ds hm
    have := List.of_mem_filter hm
    simp at this
  have hnb : '[' ∉ sqStrip s := no_bracket_detok hwf hlit hmark
  exact sqMarkVals_nil_of_no_mark
    (no_sq_mark_of_no_bracket (sqStrip s) none hnb trivial)

/-! ### Citations

`rag.py` builds citation dicts `{"title": ..., "url": ...}`. -/

structure Citation where
  title : String
  url : String
deriving DecidableEq, Repr

/-- Key used by the dedup pass (`key = (c["title"], c["url"])`). -/
def citKey (c : Citation) : String × String := (c.title, c.url)

/-- The loop of `rag.py` lines 492–498: walk the citation list keeping the
first occurrence of each `(title, url)` key, tracking seen keys. -/
def dedupCitAux (seen : List (String × String)) : List Citation → List Citation
  | [] => []
  | c :: cs =>
    if citKey c ∈ seen then dedupCitAux seen cs
    else c :: dedupCitAux (citKey c :: seen) cs

/-- Deduplicate citations by `(title, url)`, preserving first occurrences. -/
def dedupCitations (cs : List Citation) : List Citation := dedupCitAux [] cs

theorem dedupCitAux_not_mem_seen (cs : List Citation) : ∀ seen c,
    c ∈ dedupCitAux seen cs → citKey c ∉ seen := by
  induction cs with
  | nil => intro seen c h; simp [dedupCitAux] at h
  | cons c0 cs ih =>
    intro seen c h
    by_cases h0 : citKey c0 ∈ seen
    · rw [show dedupCitAux seen (c0 :: cs) = dedupCitAux seen cs by
        simp [dedupCitAux, h0]] at h
      exact ih seen c h
    · rw [show dedupCitAux seen (c0 :: cs) = c0 :: dedupCitAux (citKey c0 :: seen) cs by
        simp [dedupCitAux, h0]] at h
      rcases List.mem_cons.1 h with h | h
      · subst h; exact h0
      · intro hmem
        exact ih (citKey c0 :: seen) c h (List.mem_cons_of_mem _ hmem)

theorem dedupCitAux_pairwise (cs : List Citation) : ∀ seen,
    List.Pairwise (fun a b => citKey a ≠ citKey b) (dedupCitAux seen cs) := by
  induction cs with
  | nil => intro seen; simp [dedupCitAux]
  | cons c0 cs ih =>
    intro seen
    by_cases h0 : citKey c0 ∈ seen
    · rw [show dedupCitAux seen (c0 :: cs) = dedupCitAux seen cs by simp [dedupCitAux, h0]]
      exact ih seen
    · rw [show dedupCitAux seen (c0 :: cs) = c0 :: dedupCitAux (citKey c0 :: seen) cs by
        simp [dedupCitAux, h0]]
      refine List.pairwise_cons.2 ⟨?_, ih _⟩
      intro c hc he
      exact dedupCitAux_not_mem_seen cs _ c hc (he ▸ List.mem_cons_self _ _)

theorem dedupCitAux_of_pairwise (cs : List Citation) : ∀ seen,
    List.Pairwise (fun a b => citKey a ≠ citKey b) cs →
    (∀ c ∈ cs, citKey c ∉ seen) →
    dedupCitAux seen cs = cs := by
  induction cs with
  | nil => intro seen _ _; rfl
  | cons c0 cs ih =>
    intro seen hp hn
    have h0 : citKey c0 ∉ seen := hn c0 (List.mem_cons_self _ _)
    rw [show dedupCitAux seen (c0 :: cs) = c0 :: dedupCitAux (citKey c0 :: seen) cs by
      simp [dedupCitAux, h0]]
    congr 1
    refine ih _ (List.pairwise_cons.1 hp).2 ?_
    intro c hc
    intro hmem
    rcases List.mem_cons.1 hmem with h | h
    · exact (List.pairwise_cons.1 hp).1 c hc h.symm
    · exact hn c (List.mem_cons_of_mem _ hc) h

theorem dedupCitAux_length_le (cs : List Citation) : ∀ seen,
    (dedupCitAux seen cs).length ≤ cs.length := by
  induction cs with
  | nil => intro seen; simp [dedupCitAux]
  | cons c0 cs ih =>
    intro seen
    by_cases h0 : citKey c0 ∈ seen
    · rw [show dedupCitAux seen (c0 :: cs) = dedupCitAux seen cs by simp [dedupCitAux, h0]]
      exact Nat.le_succ_of_le (ih seen)
    · rw [show dedupCitAux seen (c0 :: cs) = c0 :: dedupCitAux (citKey c0 :: seen) cs by
        simp [dedupCitAux, h0]]
      simpa using ih (citKey c0 :: seen)

theorem dedupCitations_length_le (cs : List Citation) :
    (dedupCitations cs).length ≤ cs.length := dedupCitAux_length_le cs []

theorem dedupCitations_ne_nil {cs : List Citation} (h : cs ≠ []) :
    dedupCitations cs ≠ [] := by
  cases cs with
  | nil => exact absurd rfl h
  | cons c0 cs =>
    show dedupCitAux [] (c0 :: cs) ≠ []
    rw [show dedupCitAux [] (c0 :: cs) = c0 :: dedupCitAux [citKey c0] cs by
      simp [dedupCitAux]]
    simp

/-! ### The renumbering block (`rag.py` lines 486–519) -/

/-- Insertion into an ascending list. -/
def insertAsc (x : Nat) : List Nat → List Nat
  | [] => [x]
  | y :: ys => if x ≤ y then x :: y :: ys else y :: insertAsc x ys

/-- Ascending sort (models Python's `sorted`). -/
def sortAsc (l : List Nat) : List Nat := l.foldr insertAsc []

theorem insertAsc_length (x : Nat) (l : List Nat) :
    (insertAsc x l).length = l.length + 1 := by
  induction l with
  | nil => rfl
  | cons y ys ih =>
    show (if x ≤ y then x :: y :: ys else y :: insertAsc x ys).length = _
    by_cases h : x ≤ y
    · simp [h]
    · simp [h, ih]

theorem sortAsc_length (l : List Nat) : (sortAsc l).length = l.length := by
  induction l with
  | nil => rfl
  | cons x xs ih =>
    show (insertAsc x (sortAsc xs)).length = xs.length + 1
    rw [insertAsc_length, ih]

/-- `sorted({int(n) for n in re.findall(r"\[(\d+)\]", text)})`: the distinct
marker values of the text in ascending order. -/
def foundIndices (text : List Char) : List Nat := sortAsc (sqMarks text).dedup

/-- First index of `old` in a list, if present. -/
def idxIn (old : Nat) : List Nat → Option Nat
  | [] => none
  | x :: xs => if x = old then some 0 else (idxIn old xs).map (· + 1)

/-- `mapping.get(old, len(mapping))` where `mapping` maps the `i`-th entry of
`keys` (0-based) to `i + 1`.  `keys` is always duplicate-free here (it comes
from a sorted set), so the dict built by `enumerate(keys, start=1)` agrees
with first-index lookup. -/
def renumberFun (keys : List Nat) (old : Nat) : Nat :=
  ((idxIn old keys).map (· + 1)).getD keys.length

/-- `rag.py` lines 489–519 (executed when the citation list is nonempty):
dedup citations by `(title, url)`, compute the sorted distinct marker values,
map the first `min(#distinct, #citations)` of them to `1..`, rewrite every
square marker through the mapping with fallback `len(mapping)`, collapse
immediately repeated markers, and trim the citations to `len(mapping)`. -/
def renumberBlock (text : List Char) (cits : List Citation) :
    List Char × List Citation :=
  if cits.isEmpty then (text, cits)
  else
    let cits2 := dedupCitations cits
    let found := foundIndices text
    let maxn := min found.length cits2.length
    let keys := found.take maxn
    let text2 := sqSub (renumberFun keys) text
    let text3 := collapseSq text2
    (text3, cits2.take keys.length)

theorem idxIn_lt_length {old : Nat} : ∀ {l : List Nat} {i : Nat},
    idxIn old l = some i → i < l.length := by
  intro l
  induction l with
  | nil => intro i h; simp [idxIn] at h
  | cons x xs ih =>
    intro i h
    by_cases hx : x = old
    · rw [show idxIn old (x :: xs) = some 0 by simp [idxIn, hx]] at h
      simp only [Option.some_inj] at h
      subst h
      simp
    · rw [show idxIn old (x :: xs) = (idxIn old xs).map (· + 1) by simp [idxIn, hx]] at h
      cases hi : idxIn old xs with
      | none => rw [hi] at h; simp at h
      | some j =>
        rw [hi] at h
        have h2 : j + 1 = i := Option.some.inj h
        subst h2
        have := ih hi
        simp only [List.length_cons]
        omega

theorem idxIn_none_of_not_mem {old : Nat} : ∀ {l : List Nat},
    old ∉ l → idxIn old l = none := by
  intro l
  induction l with
  | nil => intro _; rfl
  | cons x xs ih =>
    intro h
    have hx : x ≠ old := fun he => h (he ▸ List.mem_cons_self _ _)
    rw [show idxIn old (x :: xs) = (idxIn old xs).map (· + 1) by simp [idxIn, hx]]
    rw [ih (fun hm => h (List.mem_cons_of_mem _ hm))]
    rfl

/-- Every value produced by the renumbering map lies in `1..keys.length`
(provided there is at least one key). -/
theorem renumberFun_range (keys : List Nat) (old : Nat) (hk : 1 ≤ keys.length) :
    1 ≤ renumberFun keys old ∧ renumberFun keys old ≤ keys.length := by
  unfold renumberFun
  cases hi : idxIn old keys with
  | none => exact ⟨hk, Nat.le_refl _⟩
  | some i =>
    have := idxIn_lt_length hi
    show 1 ≤ i + 1 ∧ i + 1 ≤ keys.length
    omega

/-- Marker text for the text component of `renumberBlock` on a nonempty
citation list. -/
theorem renumberBlock_text_eq (text : List Char) (cits : List Citation)
    (hc : cits ≠ []) :
    (renumberBlock text cits).1 =
      collapseSq (sqSub (renumberFun ((foundIndices text).take
        (min (foundIndices text).length (dedupCitations cits).length))) text) := by
  unfold renumberBlock
  rw [if_neg (by cases cits with | nil => exact absurd rfl hc | cons c cs => simp)]

end Rag

namespace Rag

/-- C9: the citation dedup pass of `answer()` (keep the first occurrence of
each `(title, url)` key) is idempotent: running it twice yields the same list
as running it once. -/
theorem C9_citation_dedup_idempotent (cs : List Citation) :
    dedupCitations (dedupCitations cs) = dedupCitations cs :=
  dedupCitAux_of_pairwise _ [] (dedupCitAux_pairwise cs [])
    (fun c _ => List.not_mem_nil (citKey c))

/-- C2: after the renumbering step (with at least one `[n]` marker in the text
and a nonempty citation list), every remaining marker value lies in the
contiguous range `1..min(#distinct original markers, #citations)` — in
particular no `[0]` and nothing out of range — and any original marker value
without a mapping entry is rewritten to the last valid new index
(`len(mapping)`), not left unchanged. -/
theorem C2_renumber_markers_contiguous (text : List Char) (cits : List Citation)
    (hm : sqMarks text ≠ []) (hc : cits ≠ []) :
    (∀ v ∈ sqMarks (renumberBlock text cits).1,
        1 ≤ v ∧
        v ≤ min (foundIndices text).length (dedupCitations cits).length ∧
        v ≤ min (foundIndices text).length cits.length) ∧
    (∀ old, old ∉ (foundIndices text).take
          (min (foundIndices text).length (dedupCitations cits).length) →
        renumberFun ((foundIndices text).take
          (min (foundIndices text).length (dedupCitations cits).length)) old =
          min (foundIndices text).length (dedupCitations cits).length) ∧
    (foundIndices text).length = (sqMarks text).dedup.length := by
  have hflen : (foundIndices text).length = (sqMarks text).dedup.length :=
    sortAsc_length _
  have hfpos : 1 ≤ (foundIndices text).length := by
    rw [hflen]
    have hne : (sqMarks text).dedup ≠ [] := by
      intro h
      exact hm ((List.dedup_eq_nil _).1 h)
    cases h : (sqMarks text).dedup with
    | nil => exact absurd h hne
    | cons a l => simp
  have hcpos : 1 ≤ (dedupCitations cits).length := by
    have hne := dedupCitations_ne_nil hc
    cases h : dedupCitations cits with
    | nil => exact absurd h hne
    | cons a l => simp
  set maxn := min (foundIndices text).length (dedupCitations cits).length with hmaxn
  have hmpos : 1 ≤ maxn := le_min hfpos hcpos
  have hkeys : ((foundIndices text).take maxn).length = maxn := by
    rw [List.length_take]
    omega
  refine ⟨?_, ?_, hflen⟩
  · intro v hv
    rw [renumberBlock_text_eq text cits hc] at hv
    have hv2 := sqMarks_collapseSq _ v hv
    rw [sqMarks_sqSub] at hv2
    obtain ⟨old, _, rfl⟩ := List.mem_map.1 hv2
    have hr := renumberFun_range ((foundIndices text).take maxn) old (by omega)
    rw [hkeys] at hr
    refine ⟨hr.1, hr.2, le_trans hr.2 ?_⟩
    exact min_le_min (Nat.le_refl _) (dedupCitations_length_le cits)
  · intro old hold
    unfold renumberFun
    rw [idxIn_none_of_not_mem hold]
    exact hkeys

/-- Sample citations for concrete instantiations. -/
def sampleCits3 : List Citation :=
  [⟨"a.pdf p.1", "u1"⟩, ⟨"a.pdf p.2", "u2"⟩, ⟨"b.pdf", "u3"⟩]

/-- The spec's renumbering scenario: markers `{2,5,5,7}` with 3 citations. -/
def c2txt : List Char := "x[2] y[5] z[5] w[7]".toList

theorem C2_renumber_markers_contiguous_witness :
    (∀ v ∈ sqMarks (renumberBlock c2txt sampleCits3).1,
        1 ≤ v ∧
        v ≤ min (foundIndices c2txt).length (dedupCitations sampleCits3).length ∧
        v ≤ min (foundIndices c2txt).length sampleCits3.length) ∧
    (∀ old, old ∉ (foundIndices c2txt).take
          (min (foundIndices c2txt).length (dedupCitations sampleCits3).length) →
        renumberFun ((foundIndices c2txt).take
          (min (foundIndices c2txt).length (dedupCitations sampleCits3).length)) old =
          min (foundIndices c2txt).length (dedupCitations sampleCits3).length) ∧
    (foundIndices c2txt).length = (sqMarks c2txt).dedup.length :=
  C2_renumber_markers_contiguous c2txt sampleCits3 (by decide) (by decide)

/-! ### Refusal suppression (`rag.py` lines 523–549)

Python's `str.lower`/`str.strip` and the `re.I` flag are modeled over ASCII,
matching the ASCII refusal phrases and patterns involved. -/

/-- ASCII lowercasing (model of `str.lower`). -/
def lowerC (c : Char) : Char :=
  if 'A' ≤ c ∧ c ≤ 'Z' then Char.ofNat (c.toNat + 32) else c

def lowerS (s : List Char) : List Char := s.map lowerC

/-- ASCII whitespace (model of the default `str.strip` character class). -/
def isSpaceC (c : Char) : Bool :=
  c = ' ' ∨ c = '\t' ∨ c = '\n' ∨ c = '\r' ∨ c = Char.ofNat 11 ∨ c = Char.ofNat 12

/-- `str.strip`: drop leading and trailing whitespace. -/
def stripS (s : List Char) : List Char :=
  ((s.dropWhile isSpaceC).reverse.dropWhile isSpaceC).reverse

def startsWithS : List Char → List Char → Bool
  | [], _ => true
  | _ :: _, [] => false
  | p :: ps, c :: cs => decide (p = c) && startsWithS ps cs

/-- Substring containment (Python's `needle in haystack`). -/
def containsSub (needle : List Char) : List Char → Bool
  | [] => needle.isEmpty
  | c :: cs => startsWithS needle (c :: cs) || containsSub needle cs

/-- The fixed refusal phrases of `rag.py` lines 527–537. -/
def refusalPhrases : List (List Char) :=
  ["cannot answer".toList,
   "insufficient context".toList,
   "not enough information".toList,
   "no relevant information".toList,
   "based on the provided context i cannot".toList,
   "sorry, we do not have enough information".toList,
   "my main purpose here is to answer information questions from the file base".toList]

/-- `any(phrase in text.lower().strip() for phrase in [...])`. -/
def refusalDetected (text : List Char) : Bool :=
  refusalPhrases.any fun p => containsSub p (stripS (lowerS text))

/-- Python word character `\w` (ASCII). -/
def isWordC (c : Char) : Bool := c.isAlpha ∨ c.isDigit ∨ c = '_'

/-- Is the next character (if any) a non-word character? -/
def nextNonWord : List Char → Bool
  | [] => true
  | c :: _ => !isWordC c

/-- Occurrence of `\bthe\b` (case-insensitive): the letters t-h-e with no word
character immediately before or after.  The Boolean argument records whether
the previous character was a word character. -/
def hasWordTheAux : Bool → List Char → Bool
  | prevW, t :: h :: e :: rest =>
    if !prevW && decide (lowerC t = 't') && decide (lowerC h = 'h') &&
        decide (lowerC e = 'e') && nextNonWord rest then true
    else hasWordTheAux (isWordC t) (h :: e :: rest)
  | _, [] => false
  | _, c :: rest =>
    match rest with
    | [] => false
    | _ => hasWordTheAux (isWordC c) rest

/-- Occurrence of `\d+\.`: some digit immediately followed by a period. -/
def hasDigitDot : List Char → Bool
  | c :: d :: rest => (c.isDigit && decide (d = '.')) || hasDigitDot (d :: rest)
  | _ => false

/-- `re.search(r"(\bthe\b|\d+\.|•|- )", text, re.I)`: the factual-content
signals of `rag.py` line 542. -/
def hasFactual (text : List Char) : Bool :=
  hasWordTheAux false text || hasDigitDot text ||
    text.any (fun c => decide (c = '•')) || containsSub ("- ".toList) text

/-- `rag.py` lines 546–549: when the answer is classified as a refusal and
has no factual signals, strip all inline `[n]` markers and clear the
citations. -/
def suppressRefusal (text : List Char) (cits : List Citation) :
    List Char × List Citation :=
  if refusalDetected text && !hasFactual text then (sqStrip text, []) else (text, cits)

/-! ### Auto-citation fallback (`rag.py` lines 551–563) -/

/-- Does a character list start with `]`? -/
def headIsRB : List Char → Bool
  | ']' :: _ => true
  | _ => false

/-- Does the text start with the pattern `\[\d+\]`? -/
def startsMarkerPat : List Char → Bool
  | [] => false
  | c :: rest =>
    decide (c = '[') && !(rest.takeWhile Char.isDigit).isEmpty &&
      headIsRB (rest.dropWhile Char.isDigit)

/-- `bool(re.search(r"\[\d+\]", text))`: does the marker pattern occur
anywhere in the text? -/
def hasMarkerPat : List Char → Bool
  | [] => false
  | c :: cs => startsMarkerPat (c :: cs) || hasMarkerPat cs

def lastIsSentEnd (cur : List Char) : Bool :=
  match cur.getLast? with
  | some c => decide (c = '.') || decide (c = '!') || decide (c = '?')
  | none => false

/-- `re.split(r'(?<=[.!?])\s+', s)`: split on whitespace runs immediately
preceded by sentence-ending punctuation.  The Boolean is true while consuming
the whitespace run of a boundary just crossed. -/
def splitSentAux : Bool → List Char → List Char → List (List Char)
  | _, cur, [] => [cur]
  | false, cur, c :: cs =>
    if isSpaceC c && lastIsSentEnd cur then cur :: splitSentAux true [] cs
    else splitSentAux false (cur ++ [c]) cs
  | true, cur, c :: cs =>
    if isSpaceC c then splitSentAux true cur cs
    else splitSentAux false (cur ++ [c]) cs

/-- `re.search(r"sorry|cannot|insufficient|not enough", s, re.I)`. -/
def refusalWordish (s : List Char) : Bool :=
  containsSub ("sorry".toList) (lowerS s) ||
  containsSub ("cannot".toList) (lowerS s) ||
  containsSub ("insufficient".toList) (lowerS s) ||
  containsSub ("not enough".toList) (lowerS s)

/-- `sentences[sentences.index(s)] = v`: replace the first occurrence of `s`
(always present when called from the loop below). -/
def setFirst : List (List Char) → List Char → List Char → List (List Char)
  | [], _, _ => []
  | x :: xs, s, v => if x = s then v :: xs else x :: setFirst xs s v

/-- The appended marker text `" [k]"`. -/
def markSuffix (k : Nat) : List Char := ' ' :: ('[' :: (natDigits k ++ [']']))

/-- The loop of `rag.py` lines 559–561: for the `i`-th factual sentence `s`,
rewrite the first occurrence of `s` in `sentences` to
`s.strip() + f" [{i % len(citations) + 1}]"`. -/
def autociteLoop (numCits : Nat) : Nat → List (List Char) → List (List Char) →
    List (List Char)
  | _, [], sentences => sentences
  | i, s :: rest, sentences =>
    autociteLoop numCits (i + 1) rest
      (setFirst sentences s (stripS s ++ markSuffix (i % numCits + 1)))

/-- `" ".join(sentences)`. -/
def joinSpace : List (List Char) → List Char
  | [] => []
  | [s] => s
  | s :: rest => s ++ (' ' :: joinSpace rest)

/-- `rag.py` lines 551–563: if the text contains no `[n]` marker and citations
exist, split into sentences, and append cyclic markers to the sentences that
do not look refusal-like. -/
def autocite (text : List Char) (cits : List Citation) : List Char :=
  if !hasMarkerPat text && !cits.isEmpty then
    joinSpace (autociteLoop cits.length 0
      ((splitSentAux false [] (stripS text)).filter fun s => !refusalWordish s)
      (splitSentAux false [] (stripS text)))
  else text

/-- `rag.py` lines 523–563: refusal suppression followed by the auto-citation
fallback; the returned pair is what `answer()` returns. -/
def suppressAndAutocite (text : List Char) (cits : List Citation) :
    List Char × List Citation :=
  (autocite (suppressRefusal text cits).1 (suppressRefusal text cits).2,
   (suppressRefusal text cits).2)

/-- C3 (amended): for a model response that contains a refusal phrase
(lowercased substring match), has none of the factual-content signals, and
contains no stray `[` outside complete `[n]` markers, the suppression stage
returns an empty citation list and a text with no `[n]` markers. -/
theorem C3_refusal_clears_citations (text : List Char) (cits : List Citation)
    (hr : refusalDetected text = true) (hf : hasFactual text = false)
    (hstray : Tok.lit '[' ∉ tokenize text) :
    (suppressAndAutocite text cits).2 = [] ∧
    sqMarks (suppressAndAutocite text cits).1 = [] := by
  have hcond : (refusalDetected text && !hasFactual text) = true := by
    rw [hr, hf]; rfl
  have hsup : suppressRefusal text cits = (sqStrip text, []) := by
    unfold suppressRefusal; rw [if_pos hcond]
  unfold suppressAndAutocite
  rw [hsup]
  refine ⟨rfl, ?_⟩
  show sqMarks (autocite (sqStrip text) []) = []
  unfold autocite
  rw [if_neg (by simp)]
  exact sqMarks_sqStrip_nil hstray

/-- C3 counterexample input: a refusal text with nested bracket noise. -/
def c3txt : List Char := "not enough information [5[2]]".toList

/-- C3 as stated is false: this text satisfies the refusal conditions
(refusal phrase present, no factual signal), yet the returned text still
contains the marker `[5]`, because stripping `[2]` out of `[5[2]]` creates a
new marker.  The citation list is cleared as claimed. -/
theorem C3_counterexample :
    refusalDetected c3txt = true ∧ hasFactual c3txt = false ∧
    (suppressAndAutocite c3txt [⟨"t", "u"⟩]).2 = [] ∧
    sqMarks (suppressAndAutocite c3txt [⟨"t", "u"⟩]).1 = [5] := by
  decide

/-- A refusal text with a well-formed stray marker only. -/
def c3okTxt : List Char := "not enough information [3]".toList

theorem C3_refusal_clears_citations_witness :
    (suppressAndAutocite c3okTxt sampleCits3).2 = [] ∧
    sqMarks (suppressAndAutocite c3okTxt sampleCits3).1 = [] :=
  C3_refusal_clears_citations c3okTxt sampleCits3 (by decide) (by decide) (by decide)

/-! ### Marker-pattern facts for the auto-citation fallback -/

theorem dropWhile_append_of_ne_nil {p : Char → Bool} :
    ∀ {l : List Char} (b : List Char), l.dropWhile p ≠ [] →
    (l ++ b).dropWhile p = l.dropWhile p ++ b := by
  intro l
  induction l with
  | nil => intro b h; exact absurd rfl h
  | cons c l2 ih =>
    intro b h
    by_cases hp : p c
    · simp only [List.cons_append, List.dropWhile_cons_of_pos hp] at h ⊢
      exact ih b h
    · simp only [List.cons_append, List.dropWhile_cons_of_neg hp]

theorem takeWhile_append_of_ne_nil {p : Char → Bool} :
    ∀ {l : List Char} (b : List Char), l.dropWhile p ≠ [] →
    (l ++ b).takeWhile p = l.takeWhile p := by
  intro l
  induction l with
  | nil => intro b h; exact absurd rfl h
  | cons c l2 ih =>
    intro b h
    by_cases hp : p c
    · rw [List.dropWhile_cons_of_pos hp] at h
      simp only [List.cons_append, List.takeWhile_cons_of_pos hp]
      rw [ih b h]
    · simp only [List.cons_append, List.takeWhile_cons_of_neg hp]

theorem takeWhile_digits_append : ∀ {l : List Char}, l.all Char.isDigit = true →
    ∀ {c : Char}, c.isDigit = false → ∀ (r : List Char),
    (l ++ c :: r).takeWhile Char.isDigit = l ∧
    (l ++ c :: r).dropWhile Char.isDigit = c :: r := by
  intro l
  induction l with
  | nil =>
    intro _ c hc r
    constructor
    · rw [List.nil_append, List.takeWhile_cons_of_neg (by simp [hc])]
    · rw [List.nil_append, List.dropWhile_cons_of_neg (by simp [hc])]
  | cons d l2 ih =>
    intro hall c hc r
    simp only [List.all_cons, Bool.and_eq_true] at hall
    have := ih hall.2 hc r
    constructor
    · rw [List.cons_append, List.takeWhile_cons_of_pos hall.1, this.1]
    · rw [List.cons_append, List.dropWhile_cons_of_pos hall.1, this.2]

theorem headIsRB_cons (x : Char) (xs : List Char) :
    headIsRB (x :: xs) = decide (x = ']') := by
  by_cases hx : x = ']'
  · subst hx; rfl
  · rw [decide_eq_false hx]
    unfold headIsRB
    split
    · next heq =>
      exact absurd (by injection heq) hx
    · rfl

theorem startsMarkerPat_marker (k : Nat) (r : List Char) :
    startsMarkerPat ('[' :: (natDigits k ++ (']' :: r))) = true := by
  have h := takeWhile_digits_append (natDigits_all_digit k) (c := ']') (by decide) r
  show (decide ('[' = '[') && !((natDigits k ++ (']' :: r)).takeWhile Char.isDigit).isEmpty &&
      headIsRB ((natDigits k ++ (']' :: r)).dropWhile Char.isDigit)) = true
  rw [h.1, h.2]
  cases hnd : natDigits k with
  | nil => exact absurd hnd (natDigits_ne_nil k)
  | cons d ds => rfl

theorem startsMarkerPat_append {s : List Char} (b : List Char)
    (h : startsMarkerPat s = true) : startsMarkerPat (s ++ b) = true := by
  cases s with
  | nil => exact absurd h (by simp [startsMarkerPat])
  | cons c rest =>
    simp only [startsMarkerPat, Bool.and_eq_true, decide_eq_true_eq] at h
    obtain ⟨⟨hc, htw⟩, hdw⟩ := h
    subst hc
    have hne : rest.dropWhile Char.isDigit ≠ [] := by
      intro hnil
      rw [hnil] at hdw
      exact absurd hdw (by simp [headIsRB])
    show startsMarkerPat ('[' :: (rest ++ b)) = true
    simp only [startsMarkerPat, Bool.and_eq_true, decide_eq_true_eq]
    rw [takeWhile_append_of_ne_nil b hne, dropWhile_append_of_ne_nil b hne]
    refine ⟨⟨trivial, htw⟩, ?_⟩
    cases hx : rest.dropWhile Char.isDigit with
    | nil => exact absurd hx hne
    | cons x xs =>
      rw [hx] at hdw
      rw [headIsRB_cons] at hdw
      show headIsRB (x :: (xs ++ b)) = true
      rw [headIsRB_cons]
      exact hdw

theorem hasMarkerPat_append_left : ∀ {a : List Char} (b : List Char),
    hasMarkerPat a = true → hasMarkerPat (a ++ b) = true := by
  intro a
  induction a with
  | nil => intro b h; exact absurd h (by simp [hasMarkerPat])
  | cons c cs ih =>
    intro b h
    show (startsMarkerPat ((c :: cs) ++ b) || hasMarkerPat (cs ++ b)) = true
    have h2 : (startsMarkerPat (c :: cs) || hasMarkerPat cs) = true := h
    rcases Bool.or_eq_true_iff.1 h2 with h3 | h3
    · rw [startsMarkerPat_append b h3]
      simp
    · rw [ih b h3]
      simp

theorem hasMarkerPat_append_right : ∀ (a : List Char) {b : List Char},
    hasMarkerPat b = true → hasMarkerPat (a ++ b) = true := by
  intro a
  induction a with
  | nil => intro b h; exact h
  | cons c cs ih =>
    intro b h
    show (startsMarkerPat ((c :: cs) ++ b) || hasMarkerPat (cs ++ b)) = true
    rw [ih h]
    simp

theorem hasMarkerPat_left_of_append {a b : List Char}
    (h : hasMarkerPat (a ++ b) = false) : hasMarkerPat a = false := by
  cases ha : hasMarkerPat a with
  | false => rfl
  | true => rw [hasMarkerPat_append_left b ha] at h; exact absurd h (by simp)

theorem hasMarkerPat_right_of_append {a b : List Char}
    (h : hasMarkerPat (a ++ b) = false) : hasMarkerPat b = false := by
  cases hb : hasMarkerPat b with
  | false => rfl
  | true => rw [hasMarkerPat_append_right a hb] at h; exact absurd h (by simp)

/-- `str.strip` cannot create a marker pattern. -/
theorem hasMarkerPat_stripS {s : List Char} (h : hasMarkerPat s = false) :
    hasMarkerPat (stripS s) = false := by
  have h1 : hasMarkerPat (s.dropWhile isSpaceC) = false := by
    have hdecomp : s.takeWhile isSpaceC ++ s.dropWhile isSpaceC = s :=
      List.takeWhile_append_dropWhile isSpaceC s
    rw [← hdecomp] at h
    exact hasMarkerPat_right_of_append h
  set r := s.dropWhile isSpaceC with hr
  have hdecomp2 : r.reverse.takeWhile isSpaceC ++ r.reverse.dropWhile isSpaceC = r.reverse :=
    List.takeWhile_append_dropWhile isSpaceC r.reverse
  have : (r.reverse.dropWhile isSpaceC).reverse ++ (r.reverse.takeWhile isSpaceC).reverse = r := by
    rw [← List.reverse_append, hdecomp2, List.reverse_reverse]
  rw [← this] at h1
  exact hasMarkerPat_left_of_append h1

/-- Every sentence produced by the splitter from a marker-free text is itself
free of the marker pattern. -/
theorem splitSent_marker_free : ∀ (rest : List Char) (mode : Bool) (cur : List Char),
    (mode = true → cur = []) → hasMarkerPat (cur ++ rest) = false →
    ∀ s ∈ splitSentAux mode cur rest, hasMarkerPat s = false := by
  intro rest
  induction rest with
  | nil =>
    intro mode cur _ h s hs
    have : s = cur := by
      cases mode with
      | false => simpa [splitSentAux] using hs
      | true => simpa [splitSentAux] using hs
    subst this
    rw [List.append_nil] at h
    exact h
  | cons c cs ih =>
    intro mode cur hmode h s hs
    cases mode with
    | false =>
      rw [show splitSentAux false cur (c :: cs) =
          (if isSpaceC c && lastIsSentEnd cur then cur :: splitSentAux true [] cs
           else splitSentAux false (cur ++ [c]) cs) from rfl] at hs
      by_cases hb : isSpaceC c && lastIsSentEnd cur
      · rw [if_pos hb] at hs
        rcases List.mem_cons.1 hs with hs | hs
        · subst hs
          exact hasMarkerPat_left_of_append h
        · refine ih true [] (fun _ => rfl) ?_ s hs
          rw [List.nil_append]
          rw [show cur ++ (c :: cs) = (cur ++ [c]) ++ cs by simp] at h
          exact hasMarkerPat_right_of_append h
      · rw [if_neg hb] at hs
        refine ih false (cur ++ [c]) (by simp) ?_ s hs
        rw [show (cur ++ [c]) ++ cs = cur ++ (c :: cs) by simp]
        exact h
    | true =>
      have hcur : cur = [] := hmode rfl
      subst hcur
      rw [show splitSentAux true [] (c :: cs) =
          (if isSpaceC c then splitSentAux true [] cs
           else splitSentAux false ([] ++ [c]) cs) from rfl] at hs
      by_cases hb : isSpaceC c
      · rw [if_pos hb] at hs
        refine ih true [] (fun _ => rfl) ?_ s hs
        rw [List.nil_append] at h ⊢
        show hasMarkerPat cs = false
        have : hasMarkerPat (c :: cs) = false := h
        have h2 : (startsMarkerPat (c :: cs) || hasMarkerPat cs) = false := this
        exact (Bool.or_eq_false_iff.1 h2).2
      · rw [if_neg hb] at hs
        refine ih false ([] ++ [c]) (by simp) ?_ s hs
        simpa using h

/-- The appended marker text makes a sentence match the marker pattern. -/
theorem hasMarkerPat_markSuffix (a : List Char) (k : Nat) :
    hasMarkerPat (a ++ markSuffix k) = true := by
  apply hasMarkerPat_append_right
  show (startsMarkerPat (markSuffix k) || hasMarkerPat ('[' :: (natDigits k ++ [']']))) = true
  have : hasMarkerPat ('[' :: (natDigits k ++ [']'])) = true := by
    show (startsMarkerPat ('[' :: (natDigits k ++ [']'])) ||
      hasMarkerPat (natDigits k ++ [']'])) = true
    rw [startsMarkerPat_marker k []]
    simp
  rw [this]
  simp

/-- Reference form of the auto-citation fallback, written from the claim's
description: walk the sentences in order and append the cyclic marker
`[i % numCits + 1]` to the stripped `i`-th sentence among those not matching
refusal-like words, leaving refusal-like sentences unchanged. -/
def markFactualAux (numCits : Nat) : Nat → List (List Char) → List (List Char)
  | _, [] => []
  | i, s :: rest =>
    if refusalWordish s then s :: markFactualAux numCits i rest
    else (stripS s ++ markSuffix (i % numCits + 1)) :: markFactualAux numCits (i + 1) rest

theorem autociteLoop_cons_ne (numCits : Nat) : ∀ (fact : List (List Char)) (i : Nat)
    (s : List Char) (rest : List (List Char)),
    (∀ f ∈ fact, f ≠ s) →
    autociteLoop numCits i fact (s :: rest) = s :: autociteLoop numCits i fact rest := by
  intro fact
  induction fact with
  | nil => intro i s rest _; rfl
  | cons f fact2 ih =>
    intro i s rest h
    have hfs : s ≠ f := fun he => h f (List.mem_cons_self _ _) he.symm
    show autociteLoop numCits (i + 1) fact2
        (setFirst (s :: rest) f (stripS f ++ markSuffix (i % numCits + 1))) =
      s :: autociteLoop numCits (i + 1) fact2
        (setFirst rest f (stripS f ++ markSuffix (i % numCits + 1)))
    rw [show setFirst (s :: rest) f (stripS f ++ markSuffix (i % numCits + 1)) =
        s :: setFirst rest f (stripS f ++ markSuffix (i % numCits + 1)) by
      simp [setFirst, hfs]]
    exact ih (i + 1) s _ (fun f2 hf2 => h f2 (List.mem_cons_of_mem _ hf2))

/-- The `sentences.index(s)` update loop coincides with direct in-order
marking when no sentence already contains the marker pattern (true in the
fallback branch, whose guard requires a marker-free text): previously marked
sentences end in `" [k]"` and therefore never collide with the unmarked
sentence the loop searches for. -/
theorem autociteLoop_eq_markFactual (numCits : Nat) :
    ∀ (sentences : List (List Char)) (i : Nat),
    (∀ s ∈ sentences, hasMarkerPat s = false) →
    autociteLoop numCits i (sentences.filter fun s => !refusalWordish s) sentences =
      markFactualAux numCits i sentences := by
  intro sentences
  induction sentences with
  | nil => intro i _; rfl
  | cons s rest ih =>
    intro i h
    have hrest : ∀ x ∈ rest, hasMarkerPat x = false :=
      fun x hx => h x (List.mem_cons_of_mem _ hx)
    by_cases hr : refusalWordish s
    · rw [show (s :: rest).filter (fun x => !refusalWordish x) =
          rest.filter (fun x => !refusalWordish x) by
        simp [List.filter_cons, hr]]
      rw [autociteLoop_cons_ne numCits _ i s rest ?hne]
      case hne =>
        intro f hf he
        have := List.mem_filter.1 hf
        rw [he] at this
        simp only [Bool.not_eq_eq_eq_not, Bool.not_true] at this
        rw [hr] at this
        exact Bool.noConfusion this.2
      rw [ih i hrest]
      rw [show markFactualAux numCits i (s :: rest) =
          s :: markFactualAux numCits i rest by simp [markFactualAux, hr]]
    · rw [show (s :: rest).filter (fun x => !refusalWordish x) =
          s :: rest.filter (fun x => !refusalWordish x) by
        simp [List.filter_cons, hr]]
      show autociteLoop numCits (i + 1) (rest.filter fun x => !refusalWordish x)
          (setFirst (s :: rest) s (stripS s ++ markSuffix (i % numCits + 1))) =
        markFactualAux numCits i (s :: rest)
      rw [show setFirst (s :: rest) s (stripS s ++ markSuffix (i % numCits + 1)) =
          (stripS s ++ markSuffix (i % numCits + 1)) :: rest by simp [setFirst]]
      rw [autociteLoop_cons_ne numCits _ (i + 1) _ rest ?hne2]
      case hne2 =>
        intro f hf he
        have hfm : hasMarkerPat f = false :=
          hrest f (List.mem_filter.1 hf).1
        rw [he, hasMarkerPat_markSuffix] at hfm
        exact Bool.noConfusion hfm
      rw [ih (i + 1) hrest]
      rw [show markFactualAux numCits i (s :: rest) =
          (stripS s ++ markSuffix (i % numCits + 1)) :: markFactualAux numCits (i + 1) rest by
        simp [markFactualAux, hr]]

/-- C8: when the final text contains no `[n]` marker and the citation list is
nonempty, `answer()` splits the stripped text into sentences at whitespace
following sentence-ending punctuation, and rewrites the `i`-th sentence (0-based,
counted among the sentences not matching refusal-like words) to its stripped
form with `[i % numCitations + 1]` appended, rejoining everything with single
spaces. -/
theorem C8_autocite_cyclic_markers (text : List Char) (cits : List Citation)
    (hm : hasMarkerPat text = false) (hc : cits ≠ []) :
    autocite text cits =
      joinSpace (markFactualAux cits.length 0 (splitSentAux false [] (stripS text))) := by
  unfold autocite
  rw [if_pos (by
    rw [hm]
    cases cits with
    | nil => exact absurd rfl hc
    | cons c0 cs => rfl)]
  congr 1
  apply autociteLoop_eq_markFactual
  intro s hs
  exact splitSent_marker_free (stripS text) false [] (by simp)
    (by rw [List.nil_append]; exact hasMarkerPat_stripS hm) s hs

/-- C8 witness text: three sentences, none refusal-like. -/
def c8txt : List Char := "Alpha is one. Beta is two! Gamma is three".toList

theorem C8_autocite_cyclic_markers_witness :
    autocite c8txt (sampleCits3.take 2) =
      joinSpace (markFactualAux (sampleCits3.take 2).length 0
        (splitSentAux false [] (stripS c8txt))) :=
  C8_autocite_cyclic_markers c8txt (sampleCits3.take 2) (by decide) (by decide)

/-! ### The HTTP layer's marker renumbering (`main.py` lines 116–136) -/

/-- `_renumber_answer_markers(text, old_to_new)`: substitute every `(n)`
marker and then every `[n]` marker, rewriting the number `n` to
`old_to_new.get(n, n)`.  The dict is modeled as a partial map. -/
def renumberAnswerMarkers (oldToNew : Nat → Option Nat) (text : List Char) : List Char :=
  sqSub (fun n => (oldToNew n).getD n)
    (rndSub (fun n => (oldToNew n).getD n) text)

/-- C10 (amended): `_renumber_answer_markers` rewrites every `[n]` and `(n)`
marker value through `old_to_new.get(n, n)`: a number that is a key becomes
its image, and a number absent from the mapping keeps its numeric value —
but the marker is re-rendered canonically (leading zeros dropped), not left
verbatim. -/
theorem C10_renumber_answer_markers (oldToNew : Nat → Option Nat) (text : List Char) :
    sqMarks (renumberAnswerMarkers oldToNew text) =
      (sqMarks text).map (fun n => (oldToNew n).getD n) ∧
    rndMarks (renumberAnswerMarkers oldToNew text) =
      (rndMarks text).map (fun n => (oldToNew n).getD n) := by
  unfold renumberAnswerMarkers
  constructor
  · rw [sqMarks_sqSub, sqMarks_rndSub]
  · rw [rndMarks_sqSub, rndMarks_rndSub]

/-- C10 as stated is false on the "verbatim" clause: with an empty mapping,
the marker `[007]` (number 7, no mapping entry) is rewritten to `[7]`, not
left unchanged. -/
theorem C10_counterexample :
    renumberAnswerMarkers (fun _ => none) ("a [007] b".toList) = "a [7] b".toList ∧
    "a [007] b".toList ≠ "a [7] b".toList := by decide

/-! ### Documents and retrieval (`rag.py` lines 36–66 and 190–280) -/

/-- A LangChain `Document` as the pipeline reads it: page content plus the
metadata keys `source`, `page` and `page_number` (absent key = `none`). -/
structure Doc where
  content : List Char
  source : Option (List Char)
  page : Option Int
  pageNumber : Option Int
deriving DecidableEq, Repr

/-- `os.path.basename`: the segment after the last `/`. -/
def basenameAux : List Char → List Char → List Char
  | seg, [] => seg
  | seg, c :: cs => if c = '/' then basenameAux [] cs else basenameAux (seg ++ [c]) cs

def basename (s : List Char) : List Char := basenameAux [] s

/-- `_basename(doc)`: basename of the `source` metadata, `""` when falsy. -/
def docBasename (d : Doc) : List Char :=
  basename (match d.source with | some s => s | none => [])

/-- Collapse every whitespace run to a single space (`re.sub(r"\s+", " ", s)`).
The Boolean records whether the current run has already emitted its space. -/
def collapseWsAux : Bool → List Char → List Char
  | _, [] => []
  | inRun, c :: cs =>
    if isSpaceC c then
      if inRun then collapseWsAux true cs else ' ' :: collapseWsAux true cs
    else c :: collapseWsAux false cs

/-- `_normalize(s)`: collapse whitespace, strip, lowercase. -/
def normalizeS (s : List Char) : List Char := lowerS (stripS (collapseWsAux false s))

def isAlphaC (c : Char) : Bool := ('a' ≤ c ∧ c ≤ 'z') ∨ ('A' ≤ c ∧ c ≤ 'Z')

/-- The character class `[a-zA-Z\-']` of the keyword token pattern. -/
def kwClass (c : Char) : Bool := isAlphaC c || decide (c = '-') || decide (c = Char.ofNat 39)

/-- `re.findall(r"[a-zA-Z][a-zA-Z\-']{2,}", s)`: maximal runs starting with a
letter, at least 3 characters long.  The state holds the candidate token
accumulated so far. -/
def findTokensAux : Option (List Char) → List Char → List (List Char)
  | none, [] => []
  | some acc, [] => if 3 ≤ acc.length then [acc] else []
  | none, c :: cs =>
    if isAlphaC c then findTokensAux (some [c]) cs else findTokensAux none cs
  | some acc, c :: cs =>
    if kwClass c then findTokensAux (some (acc ++ [c])) cs
    else (if 3 ≤ acc.length then [acc] else []) ++ findTokensAux none cs

/-- The `STOPWORDS` set of `rag.py` lines 36–40. -/
def stopwords : List (List Char) :=
  ["the".toList, "a".toList, "an".toList, "of".toList, "and".toList, "or".toList,
   "to".toList, "in".toList, "on".toList, "for".toList, "with".toList, "as".toList,
   "by".toList, "is".toList, "are".toList, "be".toList, "that".toList, "this".toList,
   "it".toList, "its".toList, "at".toList, "from".toList, "about".toList,
   "into".toList, "over".toList, "under".toList, "between".toList, "without".toList,
   "within".toList, "their".toList, "his".toList, "her".toList, "our".toList,
   "your".toList, "my".toList, "we".toList, "you".toList, "they".toList]

/-- `_query_keywords(q)`: keyword tokens of the lowercased query, minus
stopwords. -/
def queryKeywords (q : List Char) : List (List Char) :=
  (findTokensAux none (lowerS q)).filter fun t => !stopwords.any (fun s => decide (s = t))

/-- `_hits(text, kws)`: how many keywords occur in the normalized text. -/
def hitsCount (text : List Char) (kws : List (List Char)) : Nat :=
  (kws.filter fun k => containsSub k (normalizeS text)).length

/-- First-seen deduplication of keys. -/
def firstSeenKeys (seen : List (List Char)) : List (List Char) → List (List Char)
  | [] => []
  | x :: xs => if x ∈ seen then firstSeenKeys seen xs else x :: firstSeenKeys (x :: seen) xs

def countKey (bs : List (List Char)) (k : List Char) : Nat :=
  (bs.filter fun x => decide (x = k)).length

/-- `max(counts, key=counts.get)`: the first key (in first-seen order) whose
count is maximal; updates only on strictly greater counts. -/
def pickMaxGo (bs : List (List Char)) (best : List Char) : List (List Char) → List Char
  | [] => best
  | k :: ks => if countKey bs best < countKey bs k then pickMaxGo bs k ks else pickMaxGo bs best ks

/-- `_majority_source(docs)`: the basename occurring most often. -/
def majoritySource (docs : List Doc) : Option (List Char) :=
  match firstSeenKeys [] (docs.map docBasename) with
  | [] => none
  | k :: ks => some (pickMaxGo (docs.map docBasename) k ks)

/-- The boilerplate patterns of the cleanup step (line 214). -/
def boilerplate (low : List Char) : Bool :=
  containsSub ("table of contents".toList) low ||
  containsSub ("copyright".toList) low ||
  containsSub ("all rights reserved".toList) low ||
  containsSub ("printed on".toList) low

/-- `re.fullmatch(r"\d+", low)`. -/
def allDigitsNonempty (low : List Char) : Bool :=
  !low.isEmpty && low.all Char.isDigit

/-- Does the text at offset `n` exist and continue with a non-space
character (for the `[^\s]+` tails)? -/
def nonSpaceAt (s : List Char) (n : Nat) : Bool :=
  match s.drop n with
  | c :: _ => !isSpaceC c
  | [] => false

/-- `\s+\w+` at the start of `l`. -/
def spacesThenWord (l : List Char) : Bool :=
  !(l.takeWhile isSpaceC).isEmpty &&
    (match l.dropWhile isSpaceC with
     | c :: _ => isWordC c
     | [] => false)

/-- `\s*\d+` at the start of `l`. -/
def spacesStarThenDigit (l : List Char) : Bool :=
  match l.dropWhile isSpaceC with
  | c :: _ => c.isDigit
  | [] => false

/-- One alternative of `FOOTNOTE_PAT` matching at the start of `s` (which is
already lowercased); `prevW` says whether the previous character was a word
character (for the `\b` anchors). -/
def footnoteAt (prevW : Bool) (s : List Char) : Bool :=
  (!prevW && startsWithS ("www.".toList) s && nonSpaceAt s 4) ||
  (!prevW && startsWithS ("http://".toList) s && nonSpaceAt s 7) ||
  (!prevW && startsWithS ("https://".toList) s && nonSpaceAt s 8) ||
  (!prevW && startsWithS ("accessed".toList) s && spacesThenWord (s.drop 8)) ||
  (!prevW && startsWithS ("vol.".toList) s && spacesStarThenDigit (s.drop 4)) ||
  (!prevW && startsWithS ("p.".toList) s && spacesStarThenDigit (s.drop 2)) ||
  (!prevW && startsWithS ("doi:".toList) s)

def footnoteSearchAux : Bool → List Char → Bool
  | _, [] => false
  | prevW, c :: cs => footnoteAt prevW (c :: cs) || footnoteSearchAux (isWordC c) cs

/-- `FOOTNOTE_PAT.search(low)`. -/
def footnoteHit (low : List Char) : Bool := footnoteSearchAux false low

/-- The cleanup filter of `retrieve` step 2 (lines 208–220): keep a document
unless it is too short, boilerplate, purely numeric, or footnote-like. -/
def keepDoc (d : Doc) : Bool :=
  let txt := stripS d.content
  let low := lowerS txt
  !(txt.isEmpty || decide (txt.length < 60)) &&
  !boilerplate low &&
  !allDigitsNonempty low &&
  !(decide (txt.length < 500) && footnoteHit low)

/-- Step 3 (lines 225–233): keyword-overlap preference with relaxation. -/
def overlapPool (cleaned : List Doc) (q : List Char) : List Doc :=
  let kws := queryKeywords q
  if kws.isEmpty then cleaned
  else
    let ov2 := cleaned.filter fun d => decide (2 ≤ hitsCount d.content kws)
    let ov := if ov2.isEmpty then cleaned.filter (fun d => decide (1 ≤ hitsCount d.content kws))
      else ov2
    if ov.isEmpty then cleaned else ov

/-- Truthiness of `metadata.get("page") or metadata.get("page_number")`
(`0` is falsy and falls through). -/
def pageOrPageNumber (d : Doc) : Option Int :=
  match d.page with
  | some p => if p ≠ 0 then some p else d.pageNumber
  | none => d.pageNumber

/-- Step 4 (lines 235–261): neighbor stitching over a prefix of the pool;
`lookup src page` models the collection query (the `try/except` swallows
failures, which the `Option` already captures). -/
def neighborsOf (lookup : List Char → Int → Option (List Char)) :
    List (List Char) → List Doc → List Doc
  | _, [] => []
  | seen, d :: ds =>
    match d.source with
    | none => neighborsOf lookup seen ds
    | some src =>
      if src.isEmpty || src ∈ seen then neighborsOf lookup seen ds
      else
        (match pageOrPageNumber d with
         | none => []
         | some p =>
           (match lookup src (p - 1) with
            | some content =>
              [{ content := content, source := some src, page := some (p - 1),
                 pageNumber := none }]
            | none => []) ++
           (match lookup src (p + 1) with
            | some content =>
              [{ content := content, source := some src, page := some (p + 1),
                 pageNumber := none }]
            | none => [])) ++ neighborsOf lookup (src :: seen) ds

/-- Step 5 (lines 263–269): majority-source preference.  `if maj:` skips the
reorder both when `_majority_source` returned `None` and when it returned the
falsy empty basename (docs with missing or empty `source`). -/
def majorityStep (pool : List Doc) (k : Nat) : List Doc :=
  match majoritySource pool with
  | none => pool
  | some maj =>
    if maj.isEmpty then pool
    else
      let primary := pool.filter fun d => decide (docBasename d = maj)
      let others := pool.filter fun d => !decide (docBasename d = maj)
      if max 2 (pool.length / 2) ≤ primary.length then
        primary ++ others.take (k - primary.length)
      else pool

/-- Dedup identity `(basename(source), metadata.get("page"))` (line 275). -/
def dedupKey (d : Doc) : List Char × Option Int := (docBasename d, d.page)

/-- Step 6 (lines 271–278): first-occurrence dedup by identity. -/
def dedupDocsAux (seen : List (List Char × Option Int)) : List Doc → List Doc
  | [] => []
  | d :: ds =>
    if dedupKey d ∈ seen then dedupDocsAux seen ds
    else d :: dedupDocsAux (dedupKey d :: seen) ds

/-- The stitched pool: overlap pool plus neighbors of its `k*2` prefix. -/
def stitchedOf (raw : List Doc) (lookup : List Char → Int → Option (List Char))
    (q : List Char) (k : Nat) : List Doc :=
  overlapPool (raw.filter keepDoc) q ++
    neighborsOf lookup [] ((overlapPool (raw.filter keepDoc) q).take (k * 2))

/-- Steps 5–6 applied to a stitched pool. -/
def finalizePool (pool : List Doc) (k : Nat) : List Doc :=
  (dedupDocsAux [] (majorityStep pool k)).take k

/-- `RagPipeline.retrieve` (lines 190–280), with the vector search result
(`raw`, the `k*4` nearest passages in rank order) and the neighbor lookup
supplied as inputs. -/
def retrieveModel (raw : List Doc) (lookup : List Char → Int → Option (List Char))
    (q : List Char) (k : Nat) : List Doc :=
  if (raw.filter keepDoc).isEmpty then raw.take k
  else finalizePool (stitchedOf raw lookup q k) k

/-! ### Properties of the retrieval steps -/

theorem take_ne_nil_of_pos {α : Type} {l : List α} {k : Nat} (h : l ≠ []) (hk : 1 ≤ k) :
    l.take k ≠ [] := by
  cases l with
  | nil => exact absurd rfl h
  | cons a as =>
    cases k with
    | zero => omega
    | succ k2 => simp

theorem dedupDocsAux_sublist (l : List Doc) : ∀ seen, (dedupDocsAux seen l).Sublist l := by
  induction l with
  | nil => intro seen; simp [dedupDocsAux]
  | cons d ds ih =>
    intro seen
    by_cases hd : dedupKey d ∈ seen
    · rw [show dedupDocsAux seen (d :: ds) = dedupDocsAux seen ds by simp [dedupDocsAux, hd]]
      exact (ih seen).cons d
    · rw [show dedupDocsAux seen (d :: ds) = d :: dedupDocsAux (dedupKey d :: seen) ds by
        simp [dedupDocsAux, hd]]
      exact (ih _).cons₂ d

theorem dedupDocsAux_not_mem_seen (l : List Doc) : ∀ seen d,
    d ∈ dedupDocsAux seen l → dedupKey d ∉ seen := by
  induction l with
  | nil => intro seen d h; simp [dedupDocsAux] at h
  | cons d0 ds ih =>
    intro seen d h
    by_cases h0 : dedupKey d0 ∈ seen
    · rw [show dedupDocsAux seen (d0 :: ds) = dedupDocsAux seen ds by
        simp [dedupDocsAux, h0]] at h
      exact ih seen d h
    · rw [show dedupDocsAux seen (d0 :: ds) = d0 :: dedupDocsAux (dedupKey d0 :: seen) ds by
        simp [dedupDocsAux, h0]] at h
      rcases List.mem_cons.1 h with h | h
      · subst h; exact h0
      · intro hmem
        exact ih (dedupKey d0 :: seen) d h (List.mem_cons_of_mem _ hmem)

theorem dedupDocsAux_pairwise (l : List Doc) : ∀ seen,
    List.Pairwise (fun a b => dedupKey a ≠ dedupKey b) (dedupDocsAux seen l) := by
  induction l with
  | nil => intro seen; simp [dedupDocsAux]
  | cons d0 ds ih =>
    intro seen
    by_cases h0 : dedupKey d0 ∈ seen
    · rw [show dedupDocsAux seen (d0 :: ds) = dedupDocsAux seen ds by simp [dedupDocsAux, h0]]
      exact ih seen
    · rw [show dedupDocsAux seen (d0 :: ds) = d0 :: dedupDocsAux (dedupKey d0 :: seen) ds by
        simp [dedupDocsAux, h0]]
      refine List.pairwise_cons.2 ⟨?_, ih _⟩
      intro d hd he
      exact dedupDocsAux_not_mem_seen ds _ d hd (he ▸ List.mem_cons_self _ _)

theorem dedupDocsAux_ne_nil {l : List Doc} (h : l ≠ []) : dedupDocsAux [] l ≠ [] := by
  cases l with
  | nil => exact absurd rfl h
  | cons d ds =>
    rw [show dedupDocsAux [] (d :: ds) = d :: dedupDocsAux [dedupKey d] ds by
      simp [dedupDocsAux]]
    simp

theorem pickMaxGo_mem (bs : List (List Char)) : ∀ (ks : List (List Char)) (best : List Char),
    pickMaxGo bs best ks = best ∨ pickMaxGo bs best ks ∈ ks := by
  intro ks
  induction ks with
  | nil => intro best; exact Or.inl rfl
  | cons k0 ks2 ih =>
    intro best
    show (if countKey bs best < countKey bs k0 then pickMaxGo bs k0 ks2
        else pickMaxGo bs best ks2) = best ∨
      (if countKey bs best < countKey bs k0 then pickMaxGo bs k0 ks2
        else pickMaxGo bs best ks2) ∈ k0 :: ks2
    by_cases hlt : countKey bs best < countKey bs k0
    · rw [if_pos hlt]
      rcases ih k0 with h | h
      · exact Or.inr (by rw [h]; exact List.mem_cons_self _ _)
      · exact Or.inr (List.mem_cons_of_mem _ h)
    · rw [if_neg hlt]
      rcases ih best with h | h
      · exact Or.inl h
      · exact Or.inr (List.mem_cons_of_mem _ h)

theorem firstSeenKeys_subset (l : List (List Char)) : ∀ seen x,
    x ∈ firstSeenKeys seen l → x ∈ l := by
  induction l with
  | nil => intro seen x h; simp [firstSeenKeys] at h
  | cons y ys ih =>
    intro seen x h
    by_cases hy : y ∈ seen
    · rw [show firstSeenKeys seen (y :: ys) = firstSeenKeys seen ys by
        simp [firstSeenKeys, hy]] at h
      exact List.mem_cons_of_mem _ (ih seen x h)
    · rw [show firstSeenKeys seen (y :: ys) = y :: firstSeenKeys (y :: seen) ys by
        simp [firstSeenKeys, hy]] at h
      rcases List.mem_cons.1 h with h | h
      · exact h ▸ List.mem_cons_self _ _
      · exact List.mem_cons_of_mem _ (ih _ x h)

theorem majoritySource_mem {docs : List Doc} {maj : List Char}
    (h : majoritySource docs = some maj) : maj ∈ docs.map docBasename := by
  unfold majoritySource at h
  cases hf : firstSeenKeys [] (docs.map docBasename) with
  | nil => rw [hf] at h; exact Option.noConfusion h
  | cons k0 ks =>
    rw [hf] at h
    have h2 : pickMaxGo (docs.map docBasename) k0 ks = maj := Option.some.inj h
    rcases pickMaxGo_mem (docs.map docBasename) ks k0 with hm | hm
    · have hmk : maj = k0 := by rw [← h2, hm]
      rw [hmk]
      refine firstSeenKeys_subset _ [] k0 ?_
      rw [hf]
      exact List.mem_cons_self _ _
    · rw [h2] at hm
      refine firstSeenKeys_subset _ [] maj ?_
      rw [hf]
      exact List.mem_cons_of_mem _ hm

theorem majorityStep_ne_nil {pool : List Doc} (h : pool ≠ []) (k : Nat) :
    majorityStep pool k ≠ [] := by
  cases hms : majoritySource pool with
  | none => unfold majorityStep; rw [hms]; exact h
  | some maj =>
    unfold majorityStep
    rw [hms]
    dsimp only
    split
    · exact h
    · split
      · next hcond =>
        obtain ⟨d, hd, hdb⟩ := List.mem_map.1 (majoritySource_mem hms)
        have hmem : d ∈ pool.filter (fun d => decide (docBasename d = maj)) :=
          List.mem_filter.2 ⟨hd, by simp [hdb]⟩
        intro he
        rw [List.append_eq_nil] at he
        rw [he.1] at hmem
        exact List.not_mem_nil d hmem
      · exact h

theorem overlapPool_ne_nil {cleaned : List Doc} (h : cleaned ≠ []) (q : List Char) :
    overlapPool cleaned q ≠ [] := by
  unfold overlapPool
  dsimp only
  split
  · exact h
  · split
    · split
      · exact h
      · next hne =>
        intro hc
        exact hne (by rw [hc]; rfl)
    · next hne =>
      intro hc
      exact hne (by rw [hc]; rfl)

theorem dropWhile_append_allP {α : Type} {P : α → Bool} :
    ∀ {xs : List α} (ys : List α), (∀ d ∈ xs, P d = true) →
    (xs ++ ys).dropWhile P = ys.dropWhile P := by
  intro xs
  induction xs with
  | nil => intro ys _; rfl
  | cons x xs2 ih =>
    intro ys h
    rw [List.cons_append, List.dropWhile_cons_of_pos (h x (List.mem_cons_self _ _))]
    exact ih ys fun d hd => h d (List.mem_cons_of_mem _ hd)

theorem dropWhile_eq_self_of_allNeg {α : Type} {P : α → Bool} {ys : List α}
    (h : ∀ d ∈ ys, P d = false) : ys.dropWhile P = ys := by
  cases ys with
  | nil => rfl
  | cons y ys2 =>
    rw [List.dropWhile_cons_of_neg]
    rw [h y (List.mem_cons_self _ _)]
    simp

/-- C4: whenever the vector search produced at least one candidate and
`k ≥ 1`, `retrieve` returns at least one passage; when the cleanup filter
empties the candidate set, the unfiltered top-`k` fallback fires. -/
theorem C4_retrieve_never_empty (raw : List Doc)
    (lookup : List Char → Int → Option (List Char)) (q : List Char) (k : Nat)
    (hraw : raw ≠ []) (hk : 1 ≤ k) :
    retrieveModel raw lookup q k ≠ [] := by
  unfold retrieveModel
  split
  · exact take_ne_nil_of_pos hraw hk
  · next hcl =>
    have hcl2 : raw.filter keepDoc ≠ [] := by
      intro hc
      exact hcl (by rw [hc]; rfl)
    have hov := overlapPool_ne_nil hcl2 q
    have hst : stitchedOf raw lookup q k ≠ [] := by
      unfold stitchedOf
      intro hc
      exact hov (List.append_eq_nil.1 hc).1
    unfold finalizePool
    exact take_ne_nil_of_pos (dedupDocsAux_ne_nil (majorityStep_ne_nil hst k)) hk

/-- A candidate passage long enough to survive the cleanup filter. -/
def longDoc : Doc :=
  ⟨("This passage describes in detail how one group organizes reading circles " ++
    "and book clubs every season for new members.").toList,
   some ("plan.pdf".toList), some 3, none⟩

set_option maxRecDepth 8192 in
theorem C4_retrieve_never_empty_witness :
    retrieveModel [longDoc] (fun _ _ => none) ("education plan".toList) 4 ≠ [] :=
  C4_retrieve_never_empty [longDoc] (fun _ _ => none) ("education plan".toList) 4
    (by decide) (by decide)

/-- C5 (amended): when `A` is the source that `_majority_source` selects (the
first-seen basename with the maximal count), `A` is a truthy (nonempty)
basename, and its passage count `m` satisfies `m ≥ max(2, n/2)` for the
stitched pool of `n` passages, the finalized result places every `A`-passage
before every non-`A` passage, contains at most `k - m` passages from other
sources, and has length ≤ `k`. -/
theorem C5_majority_reorder (pool : List Doc) (k : Nat) (A : List Char)
    (hmaj : majoritySource pool = some A) (hA : A ≠ [])
    (hcond : max 2 (pool.length / 2) ≤
      (pool.filter fun d => decide (docBasename d = A)).length) :
    (∀ d ∈ (finalizePool pool k).dropWhile (fun d => decide (docBasename d = A)),
        docBasename d ≠ A) ∧
    ((finalizePool pool k).filter fun d => !decide (docBasename d = A)).length ≤
      k - (pool.filter fun d => decide (docBasename d = A)).length ∧
    (finalizePool pool k).length ≤ k := by
  have hms : majorityStep pool k =
      (pool.filter fun d => decide (docBasename d = A)) ++
      (pool.filter fun d => !decide (docBasename d = A)).take
        (k - (pool.filter fun d => decide (docBasename d = A)).length) := by
    unfold majorityStep
    rw [hmaj]
    dsimp only
    rw [if_neg (by
      intro hc
      apply hA
      cases A with
      | nil => rfl
      | cons a l => exact Bool.noConfusion hc)]
    rw [if_pos hcond]
  have hsub := dedupDocsAux_sublist (majorityStep pool k) []
  rw [hms] at hsub
  obtain ⟨r1, r2, hr, hr1, hr2⟩ := List.sublist_append_iff.1 hsub
  have hfin : finalizePool pool k = r1.take k ++ r2.take (k - r1.length) := by
    unfold finalizePool
    rw [hms, hr, List.take_append_eq_append_take]
  have hall1 : ∀ d ∈ r1, (decide (docBasename d = A) : Bool) = true := by
    intro d hd
    exact (List.mem_filter.1 (hr1.subset hd)).2
  have hall2 : ∀ d ∈ r2, (decide (docBasename d = A) : Bool) = false := by
    intro d hd
    have hmem := hr2.subset hd
    have := (List.mem_filter.1 (List.take_subset _ _ hmem)).2
    simpa using this
  refine ⟨?_, ?_, ?_⟩
  · intro d hd
    rw [hfin] at hd
    rw [dropWhile_append_allP _ (fun x hx => hall1 x (List.take_subset _ _ hx))] at hd
    rw [dropWhile_eq_self_of_allNeg (fun x hx => hall2 x (List.take_subset _ _ hx))] at hd
    have := hall2 d (List.take_subset _ _ hd)
    simpa using this
  · rw [hfin, List.filter_append]
    have e1 : ((r1.take k).filter fun d => !decide (docBasename d = A)) = [] := by
      rw [List.filter_eq_nil_iff]
      intro a ha
      rw [hall1 a (List.take_subset _ _ ha)]
      simp
    rw [e1, List.nil_append]
    have hb1 : ((r2.take (k - r1.length)).filter fun d =>
        !decide (docBasename d = A)).length ≤ (r2.take (k - r1.length)).length :=
      List.length_filter_le _ _
    have hb2 : (r2.take (k - r1.length)).length ≤ r2.length := by
      rw [List.length_take]
      exact Nat.min_le_right _ _
    have hb3 : r2.length ≤
        ((pool.filter fun d => !decide (docBasename d = A)).take
          (k - (pool.filter fun d => decide (docBasename d = A)).length)).length :=
      hr2.length_le
    have hb4 : ((pool.filter fun d => !decide (docBasename d = A)).take
        (k - (pool.filter fun d => decide (docBasename d = A)).length)).length ≤
        k - (pool.filter fun d => decide (docBasename d = A)).length :=
      List.length_take_le _ _
    omega
  · rw [hfin]
    simp only [List.length_append, List.length_take]
    omega

/-- A stitched pool where `a.pdf` is the first-seen majority source. -/
def c5okPool : List Doc :=
  [⟨"x".toList, some ("a.pdf".toList), some 1, none⟩,
   ⟨"y".toList, some ("a.pdf".toList), some 2, none⟩,
   ⟨"z".toList, some ("b.pdf".toList), some 1, none⟩]

theorem C5_majority_reorder_witness :
    (∀ d ∈ (finalizePool c5okPool 4).dropWhile
        (fun d => decide (docBasename d = "a.pdf".toList)),
      docBasename d ≠ "a.pdf".toList) ∧
    ((finalizePool c5okPool 4).filter fun d =>
      !decide (docBasename d = "a.pdf".toList)).length ≤
      4 - (c5okPool.filter fun d => decide (docBasename d = "a.pdf".toList)).length ∧
    (finalizePool c5okPool 4).length ≤ 4 :=
  C5_majority_reorder c5okPool 4 ("a.pdf".toList) (by decide) (by decide) (by decide)

/-- A pool where two sources tie at `m = n/2`; the code prefers the
first-seen source `b.pdf`, so the claim instantiated at `a.pdf` fails. -/
def c5tiePool : List Doc :=
  [⟨"b1".toList, some ("b.pdf".toList), some 1, none⟩,
   ⟨"b2".toList, some ("b.pdf".toList), some 2, none⟩,
   ⟨"a1".toList, some ("a.pdf".toList), some 1, none⟩,
   ⟨"a2".toList, some ("a.pdf".toList), some 2, none⟩]

/-- C5 as stated is false: `a.pdf` supplies `m = 2 ≥ max(2, 4/2)` of the
pool's passages, yet the returned order does not place the `a.pdf` passages
first (the tie is resolved in favor of the first-seen source `b.pdf`). -/
theorem C5_counterexample :
    ((c5tiePool.filter fun d => decide (docBasename d = "a.pdf".toList)).length = 2) ∧
    max 2 (c5tiePool.length / 2) ≤ 2 ∧
    ¬(∀ d ∈ (finalizePool c5tiePool 4).dropWhile
        (fun d => decide (docBasename d = "a.pdf".toList)),
      docBasename d ≠ "a.pdf".toList) := by decide

/-- C6: on the non-fallback path, `retrieve` returns exactly the first-seen
dedup (by `(basename(source), page)`) of the stitched-and-reordered pool,
truncated to `k`: the result is duplicate-free, is a subsequence of the
pre-dedup pool (first-seen order preserved), and has length at most `k`. -/
theorem C6_dedup_invariant (raw : List Doc)
    (lookup : List Char → Int → Option (List Char)) (q : List Char) (k : Nat)
    (h : raw.filter keepDoc ≠ []) :
    retrieveModel raw lookup q k =
      (dedupDocsAux [] (majorityStep (stitchedOf raw lookup q k) k)).take k ∧
    List.Pairwise (fun a b => dedupKey a ≠ dedupKey b) (retrieveModel raw lookup q k) ∧
    (retrieveModel raw lookup q k).Sublist
      (majorityStep (stitchedOf raw lookup q k) k) ∧
    (retrieveModel raw lookup q k).length ≤ k := by
  have heq : retrieveModel raw lookup q k =
      (dedupDocsAux [] (majorityStep (stitchedOf raw lookup q k) k)).take k := by
    unfold retrieveModel
    rw [if_neg (by
      intro hc
      cases hfe : raw.filter keepDoc with
      | nil => exact h hfe
      | cons a l => rw [hfe] at hc; exact Bool.noConfusion hc)]
    rfl
  refine ⟨heq, ?_, ?_, ?_⟩
  · rw [heq]
    exact List.Pairwise.sublist (List.take_sublist _ _) (dedupDocsAux_pairwise _ [])
  · rw [heq]
    exact (List.take_sublist _ _).trans (dedupDocsAux_sublist _ [])
  · rw [heq]
    exact List.length_take_le _ _

/-! ### Adjacent-page expansion (`rag.py` lines 283–318) -/

/-- An entry of the collection dump (`zip(all_meta["metadatas"],
all_meta["documents"])`): presence and value of the `page` key, the `source`
value, and the chunk text. -/
structure IndexEntry where
  pageKey : Option (Option Int)
  source : Option (List Char)
  content : List Char
deriving DecidableEq, Repr

/-- Python's `min` folding over optional ints: any comparison involving
`None` raises `TypeError` (modeled by the outer `none`); a singleton `None`
needs no comparison and survives. -/
def pyFoldMin : Option Int → List (Option Int) → Option (Option Int)
  | best, [] => some best
  | some b, some v :: xs => pyFoldMin (some (min b v)) xs
  | _, _ :: _ => none

def pyMin : List (Option Int) → Option (Option Int)
  | [] => none
  | x :: xs => pyFoldMin x xs

def pyFoldMax : Option Int → List (Option Int) → Option (Option Int)
  | best, [] => some best
  | some b, some v :: xs => pyFoldMax (some (max b v)) xs
  | _, _ :: _ => none

def pyMax : List (Option Int) → Option (Option Int)
  | [] => none
  | x :: xs => pyFoldMax x xs

/-- One source's pass of `_expand_adjacent_pages`: the chunks of that source
whose page lies in `[min_page - window, max_page + window]` and is not
already retrieved.  `none` models the `TypeError` Python raises when `min`,
`max` or the range arithmetic touches a missing (`None`) page. -/
def expandOneSource (allMeta : List IndexEntry) (docs : List Doc) (window : Int)
    (src : List Char) : Option (List Doc) :=
  let entries := allMeta.filter fun e => decide (e.source = some src) && e.pageKey.isSome
  let currentPages := (docs.filter fun d => decide (d.source = some src)).map Doc.page
  if currentPages.isEmpty then some []
  else
    match pyMin currentPages, pyMax currentPages with
    | some (some minP), some (some maxP) =>
      some (entries.filterMap fun e =>
        match e.pageKey with
        | some (some p) =>
          if (minP - window ≤ p ∧ p ≤ maxP + window) ∧
              currentPages.all (fun cp => decide (cp ≠ some p)) then
            some { content := e.content, source := some src, page := some p,
                   pageNumber := none }
          else none
        | _ => none)
    | _, _ => none

/-- Accumulate the additions of each source, propagating a raised error. -/
def expandLoop (allMeta : List IndexEntry) (docs : List Doc) (window : Int) :
    List (List Char) → Option (List Doc)
  | [] => some []
  | s :: ss =>
    match expandOneSource allMeta docs window s, expandLoop allMeta docs window ss with
    | some l, some rest => some (l ++ rest)
    | _, _ => none

/-- `RagPipeline._expand_adjacent_pages(docs, window)` with the collection
dump supplied; `none` models a raised `TypeError`.  Sources are visited in
first-seen order (Python iterates a set; the order cannot affect whether an
error is raised). -/
def expandAdjacentPages (allMeta : List IndexEntry) (docs : List Doc)
    (window : Int) : Option (List Doc) :=
  if docs.isEmpty then some docs
  else
    (expandLoop allMeta docs window
      (firstSeenKeys [] (docs.filterMap fun d =>
        match d.source with
        | some s => if s.isEmpty then none else some s
        | none => none))).map (docs ++ ·)

/-- A passage with a page number. -/
def c1doc1 : Doc := ⟨"alpha".toList, some ("doc.pdf".toList), some 3, none⟩

/-- A passage of the same source with no page metadata. -/
def c1doc2 : Doc := ⟨"beta".toList, some ("doc.pdf".toList), none, none⟩

/-- C1: the code violates the claim (and the spec's intent): when a source
has one passage with a page number and one without, `_expand_adjacent_pages`
raises `TypeError` (`min` over `[3, None]`) instead of tolerating the missing
page; with the pageless passage removed, the very same call returns
normally. -/
theorem C1_expand_missing_page_raises :
    expandAdjacentPages [] [c1doc1, c1doc2] 2 = none ∧
    expandAdjacentPages [] [c1doc1] 2 = some [c1doc1] := by decide

/-! ### The refusal-retry pass of `answer()` (`rag.py` lines 404–471) -/

/-- The retry-trigger refusal phrases (lines 407–413). -/
def retryRefusalPhrases : List (List Char) :=
  ["sorry, we do not have enough information".toList,
   "insufficient context".toList,
   "not enough information".toList,
   "cannot answer".toList,
   "no relevant information".toList]

/-- `any(p in text.lower().strip() for p in refusal_phrases)` (line 417). -/
def retryRefusalDetected (text : List Char) : Bool :=
  retryRefusalPhrases.any fun p => containsSub p (stripS (lowerS text))

/-- The retry dedup key `(metadata.get("source"), metadata.get("page"))`. -/
def docSeenKey (d : Doc) : Option (List Char) × Option Int := (d.source, d.page)

/-- Keep the documents with unseen keys, threading the seen set. -/
def filterUnseen (seen : List (Option (List Char) × Option Int)) :
    List Doc → List Doc × List (Option (List Char) × Option Int)
  | [] => ([], seen)
  | d :: ds =>
    if docSeenKey d ∈ seen then filterUnseen seen ds
    else
      (d :: (filterUnseen (docSeenKey d :: seen) ds).1,
        (filterUnseen (docSeenKey d :: seen) ds).2)

/-- The two retry retrieval passes (lines 420–439), unrolled: returns
`(all_attempted, added_docs)`.  `retrievePass i` is the result of the
`retrieve(query, k*(i+2))` call of pass `i`; a pass stops early when it finds
nothing new or enough context has been gathered. -/
def retryLoop (ctxDocs : List Doc) (retrievePass : Nat → List Doc) :
    List Doc × List Doc :=
  let r1 := filterUnseen (ctxDocs.map docSeenKey) (retrievePass 0)
  if r1.1.isEmpty then (ctxDocs, [])
  else if ctxDocs.length + 2 ≤ (ctxDocs ++ r1.1).length then (ctxDocs ++ r1.1, r1.1)
  else
    if (filterUnseen r1.2 (retrievePass 1)).1.isEmpty then (ctxDocs ++ r1.1, r1.1)
    else (ctxDocs ++ r1.1 ++ (filterUnseen r1.2 (retrievePass 1)).1,
      r1.1 ++ (filterUnseen r1.2 (retrievePass 1)).1)

/-- Lines 476–480: keep the citations whose 1-based position is among the
marker values used in the text, truncated to the number of distinct used
markers. -/
def pruneToUsed (text : List Char) (cits : List Citation) : List Citation :=
  if (sqMarks text).isEmpty then cits
  else ((((List.range cits.length).zip cits).filter
    fun p => decide ((p.1 + 1) ∈ sqMarks text)).map Prod.snd).take
      (sqMarks text).dedup.length

/-- Lines 476–563: everything `answer()` does to a response text after the
model calls — citation pruning, the renumbering block, refusal suppression,
and the auto-citation fallback. -/
def postProcess (text : List Char) (cits : List Citation) : List Char × List Citation :=
  suppressAndAutocite (renumberBlock text (pruneToUsed text cits)).1
    (renumberBlock text (pruneToUsed text cits)).2

/-- Lines 404–568 from the first model response onward.  `retryLlm` is the
outcome of the second model invocation: `some t` for a successful response
`t`, `none` when `llm.invoke` raises (the `except` branch).  The citation
list was built from the original context docs and is not rebuilt after a
retry. -/
def answerTail (text1 : List Char) (ctxDocs : List Doc) (cits : List Citation)
    (retrievePass : Nat → List Doc) (retryLlm : Option (List Char)) :
    List Char × List Citation :=
  if retryRefusalDetected text1 then
    if (retryLoop ctxDocs retrievePass).2.isEmpty then postProcess text1 cits
    else
      match retryLlm with
      | some t2 => postProcess t2 cits
      | none => postProcess text1 cits
  else postProcess text1 cits

/-- C7: when the first response triggers the refusal retry, the retry finds
new passages, and the second model invocation raises, the exception is
caught and all subsequent citation processing runs on the first (pre-retry)
response text — not on an error value or a partial retry result. -/
theorem C7_retry_failure_keeps_first_text (text1 : List Char) (ctxDocs : List Doc)
    (cits : List Citation) (retrievePass : Nat → List Doc)
    (hr : retryRefusalDetected text1 = true)
    (hnew : (retryLoop ctxDocs retrievePass).2 ≠ []) :
    answerTail text1 ctxDocs cits retrievePass none = postProcess text1 cits := by
  unfold answerTail
  rw [if_pos hr, if_neg (by
    intro hc
    apply hnew
    cases hl : (retryLoop ctxDocs retrievePass).2 with
    | nil => rfl
    | cons a l => rw [hl] at hc; exact Bool.noConfusion hc)]

/-- A fresh passage found by the retry retrieval. -/
def c7doc : Doc := ⟨"gamma".toList, some ("g.pdf".toList), some 1, none⟩

theorem C7_retry_failure_keeps_first_text_witness :
    answerTail ("cannot answer".toList) [] [⟨"t", "u"⟩] (fun _ => [c7doc]) none =
      postProcess ("cannot answer".toList) [⟨"t", "u"⟩] :=
  C7_retry_failure_keeps_first_text ("cannot answer".toList) [] [⟨"t", "u"⟩]
    (fun _ => [c7doc]) (by decide) (by decide)

set_option maxRecDepth 8192 in
theorem C6_dedup_invariant_witness :
    retrieveModel [longDoc] (fun _ _ => none) [] 4 =
      (dedupDocsAux [] (majorityStep (stitchedOf [longDoc] (fun _ _ => none) [] 4) 4)).take 4 ∧
    List.Pairwise (fun a b => dedupKey a ≠ dedupKey b)
      (retrieveModel [longDoc] (fun _ _ => none) [] 4) ∧
    (retrieveModel [longDoc] (fun _ _ => none) [] 4).Sublist
      (majorityStep (stitchedOf [longDoc] (fun _ _ => none) [] 4) 4) ∧
    (retrieveModel [longDoc] (fun _ _ => none) [] 4).length ≤ 4 :=
  C6_dedup_invariant [longDoc] (fun _ _ => none) [] 4 (by decide)

end Rag
